import Mathlib

/-!
Verification of the cronsim library (cronsim.py): a cron-expression parser
and iterator.  The Python source is embedded shallowly: sets of ints and
of (weekday, nth) tuples become finite sets of `Elem`; the parser works on
`List Char` mirroring Python string operations; the unbounded search loops
of the iterator become fuelled functions returning `Option`.
-/

namespace CronSim

/-- An element of a constraint set.  Python stores plain ints
(`Elem.nat`) and, for the day-of-week field, `(weekday, nth)` tuples
(`Elem.pair`) in the same set. -/
inductive Elem where
  | nat (n : ℕ)
  | pair (a b : ℕ)
deriving DecidableEq, Repr

/-- The six cron fields, in the source's order (`class Field(IntEnum)`). -/
inductive Field where
  | minute
  | hour
  | day
  | month
  | dow
  | second
deriving DecidableEq, Repr

/-- `RANGES`: the legal value domain of each field. -/
def RANGES : Field → Finset ℕ
  | .minute => Finset.range 60
  | .hour => Finset.range 24
  | .day => Finset.Icc 1 31
  | .month => Finset.Icc 1 12
  | .dow => Finset.range 7
  | .second => Finset.range 60

/-- The domain of a field as a set of `Elem`s (the form `Field.parse`
returns for `"*"`). -/
def RANGESE (f : Field) : Finset Elem := (RANGES f).image Elem.nat

/-- `max(RANGES[self])`, evaluated per field. -/
def maxRange : Field → ℕ
  | .minute => 59
  | .hour => 23
  | .day => 31
  | .month => 12
  | .dow => 6
  | .second => 59

/-- `CronSim.LAST`: the sentinel int used for `L` (last day of month). -/
def LAST : ℕ := 1000

/-- The errors `cronsim.py` raises (`CronSimError` with its three message
shapes): `Bad value: %s`, `Range end cannot be smaller than start`,
`Wrong number of fields`. -/
inductive CronErr where
  | badValue (tok : List Char)
  | rangeErr
  | wrongFieldCount
deriving DecidableEq, Repr

instance {ε α : Type} [DecidableEq ε] [DecidableEq α] : DecidableEq (Except ε α) := fun a b =>
  match a, b with
  | .ok x, .ok y =>
      decidable_of_iff (x = y) ⟨fun h => by rw [h], fun h => by cases h; rfl⟩
  | .error x, .error y =>
      decidable_of_iff (x = y) ⟨fun h => by rw [h], fun h => by cases h; rfl⟩
  | .ok _, .error _ => isFalse (fun h => Except.noConfusion h)
  | .error _, .ok _ => isFalse (fun h => Except.noConfusion h)

/-- `value.isdigit()` in Python: non-empty and all (ASCII) digits. -/
def isdigitStr (value : List Char) : Bool := !value.isEmpty && value.all Char.isDigit

/-- `int(value)` for a digit string. -/
def strVal (value : List Char) : ℕ :=
  value.foldl (fun a c => a * 10 + (c.toNat - 48)) 0

/-- `_int(value, min_value)`: reject non-digit or over-2-digit tokens and
values below `min_value`. -/
def _int (value : List Char) (minValue : ℕ) : Except CronErr ℕ :=
  if ¬ isdigitStr value ∨ 2 < value.length then .error (.badValue value)
  else if strVal value < minValue then .error (.badValue value)
  else .ok (strVal value)

def SYMBOLIC_DAYS : List (List Char) :=
  ["SUN".data, "MON".data, "TUE".data, "WED".data, "THU".data, "FRI".data, "SAT".data]

def SYMBOLIC_MONTHS : List (List Char) :=
  ["JAN".data, "FEB".data, "MAR".data, "APR".data, "MAY".data, "JUN".data,
   "JUL".data, "AUG".data, "SEP".data, "OCT".data, "NOV".data, "DEC".data]

/-- `Field.int`: symbolic month / weekday names, otherwise `_int` plus the
domain check. -/
def Field.int (f : Field) (s : List Char) : Except CronErr ℕ :=
  if f = Field.month ∧ s.map Char.toUpper ∈ SYMBOLIC_MONTHS then
    .ok (SYMBOLIC_MONTHS.indexOf (s.map Char.toUpper) + 1)
  else if f = Field.dow ∧ s.map Char.toUpper ∈ SYMBOLIC_DAYS then
    .ok (SYMBOLIC_DAYS.indexOf (s.map Char.toUpper))
  else do
    let v ← _int s 0
    if v ∈ RANGES f then pure v else .error (.badValue s)

/-- Split a char list at every char satisfying `p`, keeping empty groups
(the behaviour of Python's `str.split(sep)` for a one-char separator). -/
def splitOnP (p : Char → Bool) : List Char → List (List Char)
  | [] => [[]]
  | c :: cs =>
    if p c then [] :: splitOnP p cs
    else
      match splitOnP p cs with
      | [] => [[c]]
      | g :: gs => (c :: g) :: gs

/-- `s.split(sep)` for a one-char separator. -/
def splitOnC (c : Char) (s : List Char) : List (List Char) := splitOnP (· = c) s

/-- `s.split(sep, maxsplit=1)` when `sep` occurs in `s`: the part before the
first occurrence and the part after it. -/
def splitOnceC (c : Char) : List Char → List Char × List Char
  | [] => ([], [])
  | x :: xs =>
    if x = c then ([], xs)
    else
      let r := splitOnceC c xs
      (x :: r.1, r.2)

/-- `str.split()` (no separator): split on whitespace, drop empty parts. -/
def pysplit (s : List Char) : List (List Char) :=
  (splitOnP Char.isWhitespace s).filter (fun g => !g.isEmpty)

/-- A total linear order on `Elem` for `sorted(items)`.  In every reachable
call the list is all-ints, where this is the Python int order. -/
def Elem.le : Elem → Elem → Prop
  | .nat a, .nat b => a ≤ b
  | .nat _, .pair _ _ => True
  | .pair _ _, .nat _ => False
  | .pair a b, .pair c d => a < c ∨ (a = c ∧ b ≤ d)

instance : DecidableRel Elem.le := fun a b => by
  cases a <;> cases b <;> simp only [Elem.le] <;> infer_instance

instance : IsTrans Elem Elem.le :=
  ⟨by
    intro a b c hab hbc
    cases a <;> cases b <;> cases c <;>
      simp only [Elem.le] at hab hbc ⊢ <;> first | trivial | omega⟩

instance : IsAntisymm Elem Elem.le :=
  ⟨by
    intro a b hab hba
    cases a <;> cases b <;>
      simp only [Elem.le, Elem.nat.injEq, Elem.pair.injEq] at hab hba ⊢ <;>
        first | trivial | omega⟩

instance : IsTotal Elem Elem.le :=
  ⟨by
    intro a b
    cases a <;> cases b <;> simp only [Elem.le] <;>
      first | exact Or.inl trivial | exact Or.inr trivial | omega⟩

/-- `sorted(items)` for a set of elements (insertion sort over the
underlying multiset; agrees with `Finset.sort`, see `sortedElems_eq_sort`). -/
def sortedElems (S : Finset Elem) : List Elem :=
  Quot.liftOn S.val (fun l => List.insertionSort Elem.le l) fun _ _ h =>
    List.eq_of_perm_of_sorted
      ((List.perm_insertionSort _ _).trans <| h.trans (List.perm_insertionSort _ _).symm)
      (List.sorted_insertionSort _ _) (List.sorted_insertionSort _ _)

theorem sortedElems_coe (S : Finset Elem) : (sortedElems S : Multiset Elem) = S.val := by
  rcases S with ⟨val, nd⟩
  induction val using Quot.ind
  exact Multiset.coe_eq_coe.mpr (List.perm_insertionSort _ _)

theorem sortedElems_sorted (S : Finset Elem) : List.Sorted Elem.le (sortedElems S) := by
  rcases S with ⟨val, nd⟩
  induction val using Quot.ind
  exact List.sorted_insertionSort _ _

theorem sortedElems_eq_sort (S : Finset Elem) : sortedElems S = Finset.sort Elem.le S :=
  List.eq_of_perm_of_sorted
    (Multiset.coe_eq_coe.mp (by rw [sortedElems_coe, Finset.sort_eq]))
    (sortedElems_sorted S) (Finset.sort_sorted _ _)

theorem mem_sortedElems {e : Elem} {S : Finset Elem} : e ∈ sortedElems S ↔ e ∈ S := by
  rw [← Multiset.mem_coe, sortedElems_coe]
  exact Iff.rfl

/-- `items[::step]`: every `step`-th element starting at index 0. -/
def sliceStep (l : List Elem) (step : ℕ) : List Elem :=
  (l.enum.filter (fun ie => ie.1 % step = 0)).map Prod.snd

/-- Lines 73–81 of the source: the body of the `term/step` branch once
`step` and the parse of `term` are in hand.  A single element that is a
pair makes Python raise `TypeError` (`range` on a tuple); that case is
unreachable and modelled as an error. -/
def stepSelect (f : Field) (items0 : Finset Elem) (step : ℕ) : Except CronErr (Finset Elem) :=
  let items := sortedElems items0
  if items = [Elem.nat LAST] then .ok items0
  else if items.length = 1 then
    match items with
    | [Elem.nat start] =>
        .ok (sliceStep ((List.range' start (maxRange f + 1 - start)).map Elem.nat) step).toFinset
    | _ => .error (.badValue [])
  else .ok (sliceStep items step).toFinset

/-- `Field.parse`, fuelled: the recursion (comma terms, the `term` of
`term/step`) always descends to strictly shorter strings, so fuel
`s.length + 1` always suffices. -/
def parseF : ℕ → Field → List Char → Except CronErr (Finset Elem)
  | 0, _, _ => .error .rangeErr
  | fuel + 1, f, s =>
    if s = ['*'] then .ok (RANGESE f)
    else if ',' ∈ s then
      (splitOnC ',' s).foldlM (fun acc term => do
        let r ← parseF fuel f term
        pure (acc ∪ r)) ∅
    else if '#' ∈ s ∧ f = Field.dow then
      let tn := splitOnceC '#' s
      do
        let nth ← _int tn.2 1
        let v ← f.int tn.1
        pure {Elem.pair v nth}
    else if '/' ∈ s then
      let ts := splitOnceC '/' s
      do
        let step ← _int ts.2 1
        let items0 ← parseF fuel f ts.1
        stepSelect f items0 step
    else if '-' ∈ s then
      let se := splitOnceC '-' s
      do
        let start ← f.int se.1
        let e ← f.int se.2
        if e < start then .error .rangeErr
        else .ok ((List.range' start (e + 1 - start)).map Elem.nat).toFinset
    else if f = Field.day ∧ (s = ['L'] ∨ s = ['l']) then .ok {Elem.nat LAST}
    else do
      let v ← f.int s
      pure {Elem.nat v}

/-- `Field.parse` with always-sufficient fuel. -/
def parseTop (f : Field) (s : List Char) : Except CronErr (Finset Elem) :=
  parseF (s.length + 1) f s

/-- Lines 119–125 of `CronSim.__init__`: the day / day-of-week disjunction
rule, applied sequentially exactly as in the source. -/
def disjunctionRule (days0 weekdays0 : Finset Elem) : Finset Elem × Finset Elem :=
  let days1 := if days0 = RANGESE Field.day ∧ weekdays0 ≠ RANGESE Field.dow then ∅ else days0
  let weekdays1 :=
    if weekdays0 = RANGESE Field.dow ∧ days1 ≠ RANGESE Field.day then ∅ else weekdays0
  (days1, weekdays1)

/-- The compiled constraint sets held by a `CronSim` instance. -/
structure Spec where
  minutes : Finset Elem
  hours : Finset Elem
  days : Finset Elem
  months : Finset Elem
  weekdays : Finset Elem
  seconds : Finset Elem
deriving DecidableEq

/-- Parsing the six fields of `CronSim.__init__` (lines 112–125),
including the disjunction rule. -/
def parseFields (p0 p1 p2 p3 p4 p5 : List Char) : Except CronErr Spec := do
  let minutes ← parseTop Field.minute p0
  let hours ← parseTop Field.hour p1
  let days0 ← parseTop Field.day p2
  let months ← parseTop Field.month p3
  let weekdays0 ← parseTop Field.dow p4
  let seconds ← parseTop Field.second p5
  let dw := disjunctionRule days0 weekdays0
  pure ⟨minutes, hours, dw.1, months, dw.2, seconds⟩

/-- The field-parsing part of `CronSim.__init__`: split the expression,
default the 6th field to `"0"`, parse each field, apply the disjunction
rule. -/
def cronParse (expr : List Char) : Except CronErr Spec :=
  let parts0 := pysplit expr
  let parts := if parts0.length = 5 then parts0 ++ [['0']] else parts0
  match parts with
  | [p0, p1, p2, p3, p4, p5] => parseFields p0 p1 p2 p3 p4 p5
  | _ => .error .wrongFieldCount

/-! ## Dates and datetimes

A calendar date carries its year, month, day and weekday.  The weekday
component models Python's `date.weekday()` (0 = Monday … 6 = Sunday): it
is part of the state and advances by one (mod 7) per day, exactly as the
real weekday does; concrete dates are instantiated with their true
weekday (e.g. 2020-01-01 was a Wednesday, weekday 2). -/

structure CDate where
  year : ℕ
  month : ℕ
  day : ℕ
  wd : ℕ
deriving DecidableEq, Repr

/-- `calendar.isleap`, as the Gregorian rule. -/
def leapYear (y : ℕ) : Bool := y % 4 = 0 && (y % 100 != 0 || y % 400 = 0)

/-- `calendar.monthrange(y, m)[1]`: the number of days of month `m` of
year `y`. -/
def monthLen (y m : ℕ) : ℕ :=
  if m = 2 then (if leapYear y then 29 else 28)
  else if m = 4 ∨ m = 6 ∨ m = 9 ∨ m = 11 then 30
  else 31

/-- `date + timedelta(days=1)`. -/
def CDate.succ (d : CDate) : CDate :=
  if d.day < monthLen d.year d.month then ⟨d.year, d.month, d.day + 1, (d.wd + 1) % 7⟩
  else if d.month < 12 then ⟨d.year, d.month + 1, 1, (d.wd + 1) % 7⟩
  else ⟨d.year + 1, 1, 1, (d.wd + 1) % 7⟩

/-- `date + timedelta(days=k)`. -/
def iterD : ℕ → CDate → CDate
  | 0, d => d
  | k + 1, d => iterD k d.succ

/-- A datetime at whole-second granularity (the cursor held by a
`CronSim` instance). -/
structure CDT where
  date : CDate
  hour : ℕ
  minute : ℕ
  second : ℕ
deriving DecidableEq, Repr

/-- `dt + timedelta(seconds=n)`. -/
def addSeconds (t : CDT) (n : ℕ) : CDT :=
  let tot := t.hour * 3600 + t.minute * 60 + t.second + n
  ⟨iterD (tot / 86400) t.date, tot % 86400 / 3600, tot % 86400 % 3600 / 60, tot % 60⟩

/-- A caller-supplied start instant: it may also carry sub-second state
(microseconds). -/
structure StartDT where
  date : CDate
  hour : ℕ
  minute : ℕ
  second : ℕ
  micro : ℕ
deriving DecidableEq, Repr

/-- Line 103 of the source: `self.dt = dt.replace(second=0, microsecond=0)`. -/
def initCursor (t : StartDT) : CDT := ⟨t.date, t.hour, t.minute, 0⟩

/-- The start instant with only its sub-second state discarded (what C2
says `initCursor` computes). -/
def forgetMicro (t : StartDT) : CDT := ⟨t.date, t.hour, t.minute, t.second⟩

/-- `min(S)` for a Python set of ints (pairs are projected to their first
component; Python would raise `TypeError` on a pair, and compiled
hour/minute/second sets never contain one). -/
def Elem.val : Elem → ℕ
  | .nat n => n
  | .pair a _ => a

/-- `min(S)` for a set of ints. -/
def setMin (S : Finset Elem) : ℕ := WithBot.unbot' 0 (S.image Elem.val).min

/-- `min((v - cur) % modulus for v in S)`. -/
def minDelta (S : Finset Elem) (cur modulus : ℕ) : ℕ :=
  WithBot.unbot' 0 ((S.image fun e => (Elem.val e + (modulus - cur % modulus)) % modulus).min)

/-- `CronSim.match_day` (lines 177–194). -/
def matchDay (spec : Spec) (d : CDate) : Bool :=
  if Elem.nat d.day ∈ spec.days then true
  else if Elem.nat LAST ∈ spec.days ∧ d.day = monthLen d.year d.month then true
  else
    let dow := d.wd + 1
    let idx := (d.day + 6) / 7
    if Elem.nat dow ∈ spec.weekdays ∨ Elem.nat (dow % 7) ∈ spec.weekdays then true
    else if Elem.pair dow idx ∈ spec.weekdays ∨ Elem.pair (dow % 7) idx ∈ spec.weekdays then true
    else false

/-- A fuelled `while not ok(needle): needle += timedelta(days=1)` scan,
starting at `d` itself. -/
def scanDate (ok : CDate → Bool) : ℕ → CDate → Option CDate
  | 0, _ => none
  | fuel + 1, d => if ok d then some d else scanDate ok fuel d.succ

/-- `CronSim.advance_month`: no-op when the month matches, otherwise a
day-by-day scan, landing at midnight of the found date. -/
def advanceMonth (spec : Spec) (sFuel : ℕ) (t : CDT) : Option CDT :=
  if Elem.nat t.date.month ∈ spec.months then some t
  else (scanDate (fun d => decide (Elem.nat d.month ∈ spec.months)) sFuel t.date).map
    (fun d => ⟨d, 0, 0, 0⟩)

/-- `CronSim.advance_day`: `False` when the date already matches,
otherwise a day-by-day scan to the next matching date, landing at
midnight. -/
def advanceDay (spec : Spec) (sFuel : ℕ) (t : CDT) : Option (CDT × Bool) :=
  if matchDay spec t.date then some (t, false)
  else (scanDate (matchDay spec) sFuel t.date).map (fun d => (⟨d, 0, 0, 0⟩, true))

/-- `CronSim.advance_hour`: minimal forward hour distance, then reset
minute and second to their set minima. -/
def advanceHour (spec : Spec) (t : CDT) : CDT × Bool :=
  if Elem.nat t.hour ∈ spec.hours then (t, false)
  else
    let t1 := addSeconds t (3600 * minDelta spec.hours t.hour 24)
    (⟨t1.date, t1.hour, setMin spec.minutes, setMin spec.seconds⟩, true)

/-- `CronSim.advance_minute`: minimal forward minute distance, then reset
second to its set minimum. -/
def advanceMinute (spec : Spec) (t : CDT) : CDT × Bool :=
  if Elem.nat t.minute ∈ spec.minutes then (t, false)
  else
    let t1 := addSeconds t (60 * minDelta spec.minutes t.minute 60)
    (⟨t1.date, t1.hour, t1.minute, setMin spec.seconds⟩, true)

/-- `CronSim.advance_second`: minimal forward second distance. -/
def advanceSecond (spec : Spec) (t : CDT) : CDT × Bool :=
  if Elem.nat t.second ∈ spec.seconds then (t, false)
  else (addSeconds t (minDelta spec.seconds t.second 60), true)

/-- The adjustment loop of `CronSim.__next__` (lines 235–251): run the
five stages in order, restarting whenever one reports a change; `sFuel`
bounds each inner day-by-day scan and `fuel` the number of passes. -/
def cronLoop (spec : Spec) (sFuel : ℕ) : ℕ → CDT → Option CDT
  | 0, _ => none
  | fuel + 1, t =>
    match advanceMonth spec sFuel t with
    | none => none
    | some t1 =>
      match advanceDay spec sFuel t1 with
      | none => none
      | some (t2, true) => cronLoop spec sFuel fuel t2
      | some (t2, false) =>
        match advanceHour spec t2 with
        | (t3, true) => cronLoop spec sFuel fuel t3
        | (t3, false) =>
          match advanceMinute spec t3 with
          | (t4, true) => cronLoop spec sFuel fuel t4
          | (t4, false) =>
            match advanceSecond spec t4 with
            | (t5, true) => cronLoop spec sFuel fuel t5
            | (t5, false) => some t5

/-- `CronSim.__next__`: advance the cursor by one second, then run the
adjustment loop to its fixed point. -/
def cronNext (spec : Spec) (sFuel fuel : ℕ) (t : CDT) : Option CDT :=
  cronLoop spec sFuel fuel (addSeconds t 1)

/-! ## Validity and well-formedness -/

/-- A real calendar date (the weekday component is only constrained to
0–6; theorems quantified over valid dates hold in particular for the
dates whose weekday is the true one). -/
def ValidDate (d : CDate) : Prop :=
  1 ≤ d.month ∧ d.month ≤ 12 ∧ 1 ≤ d.day ∧ d.day ≤ monthLen d.year d.month ∧ d.wd < 7

/-- A valid datetime. -/
def ValidDT (t : CDT) : Prop :=
  ValidDate t.date ∧ t.hour < 24 ∧ t.minute < 60 ∧ t.second < 60

/-- Every element of `S` is an int drawn from `R`. -/
def IntSet (S : Finset Elem) (R : Finset ℕ) : Prop :=
  ∀ e ∈ S, ∃ n ∈ R, e = Elem.nat n

instance (S : Finset Elem) (R : Finset ℕ) : Decidable (IntSet S R) := by
  unfold IntSet; infer_instance

/-- A legal element of a compiled weekday set: an int 0–6 or a
`(weekday, nth)` pair with weekday 0–6 and nth ≥ 1. -/
def WdOK : Elem → Prop
  | .nat n => n < 7
  | .pair a b => a < 7 ∧ 1 ≤ b

instance (e : Elem) : Decidable (WdOK e) := by
  cases e <;> simp only [WdOK] <;> infer_instance

/-- What compilation guarantees about a constraint-set record (proved in
`cronParse_wf`): minutes/hours/seconds/months are non-empty int sets within
their domains, days is an int set within its domain plus the `LAST`
sentinel, weekdays holds ints within 0–6 and pairs with ordinal ≥ 1, and
not both of days/weekdays are empty. -/
def WFSpec (spec : Spec) : Prop :=
  (spec.minutes.Nonempty ∧ IntSet spec.minutes (Finset.range 60)) ∧
  (spec.hours.Nonempty ∧ IntSet spec.hours (Finset.range 24)) ∧
  (spec.seconds.Nonempty ∧ IntSet spec.seconds (Finset.range 60)) ∧
  (spec.months.Nonempty ∧ IntSet spec.months (Finset.Icc 1 12)) ∧
  IntSet spec.days (Finset.Icc 1 31 ∪ {LAST}) ∧
  (∀ e ∈ spec.weekdays, WdOK e) ∧
  ¬(spec.days = ∅ ∧ spec.weekdays = ∅)

instance (spec : Spec) : Decidable (WFSpec spec) := by
  unfold WFSpec; infer_instance

/-! ## Concrete specs used by the claim theorems -/

/-- The compiled form of `"1 1 L * *"` (second defaulted to `"0"`; the
day/weekday disjunction empties the weekday set). -/
def c5spec : Spec :=
  ⟨{Elem.nat 1}, {Elem.nat 1}, {Elem.nat 1000}, RANGESE Field.month, ∅, {Elem.nat 0}⟩

/-- 2020-01-01T00:00:00.000000 (a Wednesday, `weekday() = 2`). -/
def c5start : StartDT := ⟨⟨2020, 1, 1, 2⟩, 0, 0, 0, 0⟩

/-- 2020-01-01T12:30:45.000000: zero microseconds, non-zero seconds. -/
def c2start : StartDT := ⟨⟨2020, 1, 1, 2⟩, 12, 30, 45, 0⟩

/-- The compiled form of `"* * 31 2 *"`: day 31 required, month February
required — no date ever satisfies both, so the adjustment loop never
returns. -/
def cexSpec : Spec :=
  ⟨RANGESE Field.minute, RANGESE Field.hour, {Elem.nat 31}, {Elem.nat 2}, ∅, {Elem.nat 0}⟩

/-- The compiled form of `"* * * * * *"` (all six fields unrestricted). -/
def allSpec : Spec :=
  ⟨RANGESE Field.minute, RANGESE Field.hour, RANGESE Field.day, RANGESE Field.month,
    RANGESE Field.dow, RANGESE Field.second⟩

end CronSim

namespace CronSim

/-! ## C2: cursor initialisation -/

/-- C2 counterexample: at the start instant 2020-01-01T12:30:45.000000
(zero microseconds), the constructor does not preserve the seconds
component: the cursor's second is 0, not 45, so the claim "only
sub-second state is discarded at construction" is false. -/
theorem c2_counterexample :
    c2start.micro = 0 ∧ initCursor c2start ≠ forgetMicro c2start ∧
      (initCursor c2start).second = 0 ∧ (forgetMicro c2start).second = 45 := by
  decide

/-- C2 amended: the cursor is the start instant truncated to whole-minute
granularity — both the seconds and the sub-second state are cleared
(`dt.replace(second=0, microsecond=0)`); a start instant whose seconds
and microseconds are already zero becomes the initial cursor unchanged. -/
theorem c2_cursor_truncation :
    ∀ t : StartDT,
      initCursor t = ⟨t.date, t.hour, t.minute, 0⟩ ∧
        (t.second = 0 → initCursor t = forgetMicro t) := by
  intro t
  refine ⟨rfl, fun h => ?_⟩
  simp only [initCursor, forgetMicro, h]

/-! ## C5: the end-to-end example -/

/-- C5: compiling `"1 1 L * *"` from the start instant
2020-01-01T00:00:00 produces, as its first instant,
2020-01-31T01:01:00 (2020-01-31 was a Friday, `weekday() = 4`). -/
theorem c5_end_to_end :
    cronParse "1 1 L * *".data = .ok c5spec ∧
      cronNext c5spec 40 8 (initCursor c5start) = some ⟨⟨2020, 1, 31, 4⟩, 1, 1, 0⟩ := by
  decide

/-! ## C6: the disjunction rule -/

/-- C6: the disjunction rule empties the day set when it alone is
unrestricted, empties the weekday set when it alone is unrestricted, and
leaves both as parsed when neither or both are restricted; concretely,
`"* * * * 1"` compiles to day set ∅ / weekday set `{1}` and `"* * 1 * *"`
to day set `{1}` / weekday set ∅. -/
theorem c6_disjunction :
    (∀ D W : Finset Elem,
      (D = RANGESE Field.day → W ≠ RANGESE Field.dow → disjunctionRule D W = (∅, W)) ∧
      (W = RANGESE Field.dow → D ≠ RANGESE Field.day → disjunctionRule D W = (D, ∅)) ∧
      ((D = RANGESE Field.day ↔ W = RANGESE Field.dow) → disjunctionRule D W = (D, W))) ∧
    (cronParse "* * * * 1".data).map (fun s => (s.days, s.weekdays)) =
      .ok (∅, {Elem.nat 1}) ∧
    (cronParse "* * 1 * *".data).map (fun s => (s.days, s.weekdays)) =
      .ok ({Elem.nat 1}, ∅) := by
  refine ⟨?_, by decide, by decide⟩
  intro D W
  refine ⟨fun h1 h2 => ?_, fun h1 h2 => ?_, fun h => ?_⟩
  · subst h1
    simp [disjunctionRule, h2]
  · subst h1
    simp [disjunctionRule, h2]
  · by_cases hD : D = RANGESE Field.day
    · have hW : W = RANGESE Field.dow := h.mp hD
      subst hD; subst hW
      simp [disjunctionRule]
    · have hW : W ≠ RANGESE Field.dow := fun hw => hD (h.mpr hw)
      simp [disjunctionRule, hD, hW]

/-! ## C7: term/step parsing -/

/-- C7: `term/step` requires step ≥ 1 (enforced by `_int` with
`min_value=1`); a last-day-sentinel term passes through unchanged; a
single-element term expands from that element to the field's maximum and
is then stepped; a multi-value term is sorted and stepped; concretely,
for the minute field `*/15` yields {0,15,30,45}, `5/15` yields
{5,20,35,50} and `0-10/2` yields {0,2,4,6,8,10}, while `*/0` is
rejected. -/
theorem c7_step_parsing :
    (∀ s v, _int s 1 = .ok v → 1 ≤ v) ∧
    (∀ f S step, sortedElems S = [Elem.nat LAST] → stepSelect f S step = .ok S) ∧
    (∀ f start step, start ≠ LAST →
      stepSelect f {Elem.nat start} step =
        .ok (sliceStep ((List.range' start (maxRange f + 1 - start)).map Elem.nat) step).toFinset) ∧
    (∀ f S step, 2 ≤ (sortedElems S).length →
      stepSelect f S step = .ok (sliceStep (sortedElems S) step).toFinset) ∧
    parseTop Field.minute "*/15".data =
      .ok {Elem.nat 0, Elem.nat 15, Elem.nat 30, Elem.nat 45} ∧
    parseTop Field.minute "5/15".data =
      .ok {Elem.nat 5, Elem.nat 20, Elem.nat 35, Elem.nat 50} ∧
    parseTop Field.minute "0-10/2".data =
      .ok {Elem.nat 0, Elem.nat 2, Elem.nat 4, Elem.nat 6, Elem.nat 8, Elem.nat 10} ∧
    parseTop Field.minute "*/0".data = .error (.badValue ['0']) := by
  refine ⟨?_, ?_, ?_, ?_, by decide, by decide, by decide, by decide⟩
  · intro s v h
    simp only [_int] at h
    split at h
    · cases h
    · split at h
      · cases h
      · rename_i h2
        cases h
        omega
  · intro f S step h
    simp only [stepSelect, h]
    simp
  · intro f start step h
    have hsort : sortedElems {Elem.nat start} = [Elem.nat start] := by
      rw [sortedElems_eq_sort]
      exact Finset.sort_singleton _ _
    simp only [stepSelect, hsort]
    simp [h]
  · intro f S step h
    simp only [stepSelect]
    split_ifs with h1 h2
    · rw [h1] at h
      simp at h
    · omega
    · rfl

/-! ## Parsing infrastructure lemmas -/

theorem splitOnP_ne_nil (p : Char → Bool) (s : List Char) : splitOnP p s ≠ [] := by
  induction s with
  | nil => simp [splitOnP]
  | cons c cs ih =>
    simp only [splitOnP]
    split
    · simp
    · split
      · simp
      · simp

theorem splitOnP_exists_mem {p : Char → Bool} {c : Char} {s : List Char}
    (hc : c ∈ s) (hp : p c = false) : ∃ g ∈ splitOnP p s, c ∈ g := by
  induction s with
  | nil => cases hc
  | cons x xs ih =>
    simp only [splitOnP]
    rcases List.mem_cons.mp hc with rfl | hmem
    · rw [if_neg (by simp [hp])]
      rcases hg : splitOnP p xs with _ | ⟨g, gs⟩
      · exact absurd hg (splitOnP_ne_nil p xs)
      · exact ⟨c :: g, by simp⟩
    · by_cases hx : p x = true
      · rw [if_pos hx]
        obtain ⟨g, hg1, hg2⟩ := ih hmem
        exact ⟨g, by simp [hg1], hg2⟩
      · rw [if_neg hx]
        obtain ⟨g, hg1, hg2⟩ := ih hmem
        rcases hgs : splitOnP p xs with _ | ⟨g0, gs⟩
        · exact absurd hgs (splitOnP_ne_nil p xs)
        · rw [hgs] at hg1
          rcases List.mem_cons.mp hg1 with rfl | hin
          · exact ⟨x :: g, by simp, by simp [hg2]⟩
          · exact ⟨g, by simp [hin], hg2⟩

theorem splitOnceC_recover {c : Char} {s : List Char} (h : c ∈ s) :
    s = (splitOnceC c s).1 ++ c :: (splitOnceC c s).2 ∧ c ∉ (splitOnceC c s).1 := by
  induction s with
  | nil => cases h
  | cons x xs ih =>
    simp only [splitOnceC]
    by_cases hx : x = c
    · subst hx
      simp
    · rw [if_neg hx]
      rcases List.mem_cons.mp h with rfl | hmem
      · exact absurd rfl hx
      · obtain ⟨h1, h2⟩ := ih hmem
        constructor
        · simpa using congrArg (x :: ·) h1
        · simp only [List.mem_cons]
          rintro (rfl | hin)
          · exact hx rfl
          · exact h2 hin

theorem splitOnceC_append {c : Char} {a b : List Char} (ha : c ∉ a) :
    splitOnceC c (a ++ c :: b) = (a, b) := by
  induction a with
  | nil => simp [splitOnceC]
  | cons x xs ih =>
    have hx : ¬ x = c := fun hx => ha (List.mem_cons.mpr (Or.inl hx.symm))
    have hrec := ih (fun hin => ha (List.mem_cons_of_mem x hin))
    simp [splitOnceC, hx, hrec]

theorem _int_ok {s : List Char} {minv v : ℕ} (h : _int s minv = .ok v) :
    isdigitStr s = true ∧ s.length ≤ 2 ∧ v = strVal s ∧ minv ≤ v := by
  simp only [_int] at h
  split at h
  · cases h
  · rename_i hc
    push_neg at hc
    split at h
    · cases h
    · rename_i hv
      cases h
      exact ⟨by simpa using hc.1, hc.2, rfl, by omega⟩

theorem _int_err_of_not_digit {s : List Char} {minv : ℕ} (h : isdigitStr s = false) :
    _int s minv = .error (.badValue s) := by
  simp only [_int]
  rw [if_pos (Or.inl (by simp [h]))]

theorem isdigitStr_false_of_mem {s : List Char} {c : Char} (hc : c ∈ s)
    (hd : c.isDigit = false) : isdigitStr s = false := by
  simp only [isdigitStr]
  cases s with
  | nil => cases hc
  | cons x xs =>
    simp only [List.isEmpty_cons, Bool.not_false, Bool.true_and]
    rw [Bool.eq_false_iff]
    intro hall
    rw [List.all_eq_true] at hall
    rw [hall c hc] at hd
    cases hd

/-- Every symbolic month / weekday name is 3 letters and contains none of
the structural characters, so a token containing one of them never
matches a symbolic name. -/
theorem symbolic_no_special (c : Char) (hc : c = '#' ∨ c = '-' ∨ c = '/' ∨ c = ',') :
    (∀ t ∈ SYMBOLIC_MONTHS, c ∉ t) ∧ (∀ t ∈ SYMBOLIC_DAYS, c ∉ t) := by
  rcases hc with rfl | rfl | rfl | rfl <;> exact ⟨by decide, by decide⟩

theorem map_toUpper_mem {c : Char} {s : List Char} (h : c ∈ s) :
    c.toUpper ∈ s.map Char.toUpper :=
  List.mem_map_of_mem Char.toUpper h

/-- `Field.int` fails on any token containing `#` (also around `-`, `/`).
The token is neither a symbolic name nor a digit string. -/
theorem Field_int_err_of_special {f : Field} {s : List Char} {c : Char}
    (hc : c ∈ s) (hspec : c = '#' ∨ c = '-' ∨ c = '/' ∨ c = ',')
    (hu : c.toUpper = c) (hd : c.isDigit = false) :
    Field.int f s = .error (.badValue s) := by
  have hmem := map_toUpper_mem hc
  rw [hu] at hmem
  obtain ⟨hM, hD⟩ := symbolic_no_special c hspec
  simp only [Field.int]
  rw [if_neg (fun hh => hM _ hh.2 hmem), if_neg (fun hh => hD _ hh.2 hmem)]
  rw [_int_err_of_not_digit (isdigitStr_false_of_mem hc hd)]
  rfl

theorem okBind {ε α β : Type} (a : α) (k : α → Except ε β) :
    ((Except.ok a : Except ε α) >>= k) = k a := rfl

theorem errBind {ε α β : Type} (e : ε) (k : α → Except ε β) :
    ((Except.error e : Except ε α) >>= k) = Except.error e := rfl

/-- The lower end of each field's domain. -/
def minRange : Field → ℕ
  | .day => 1
  | .month => 1
  | _ => 0

theorem mem_RANGES_iff {f : Field} {n : ℕ} :
    n ∈ RANGES f ↔ minRange f ≤ n ∧ n ≤ maxRange f := by
  cases f <;> simp [RANGES, minRange, maxRange, Finset.mem_range, Finset.mem_Icc] <;> omega

theorem ranges_nonempty (f : Field) : (RANGES f).Nonempty := by
  cases f <;> decide

/-- What `Field.parse` can put into a set for field `f`: ints of the
domain, the `LAST` sentinel for the day field, `(weekday, nth)` pairs for
the day-of-week field. -/
def ElemOK (f : Field) : Elem → Prop
  | .nat n => n ∈ RANGES f ∨ (f = Field.day ∧ n = LAST)
  | .pair a b => f = Field.dow ∧ a ∈ RANGES Field.dow ∧ 1 ≤ b

theorem sliceStep_subset {l : List Elem} {step : ℕ} {e : Elem}
    (h : e ∈ sliceStep l step) : e ∈ l := by
  simp only [sliceStep, List.mem_map] at h
  obtain ⟨⟨i, x⟩, hmem, rfl⟩ := h
  have h1 := (List.mem_filter.mp hmem).1
  have h2 := List.mem_enum_iff_get?.mp h1
  exact List.get?_mem h2

theorem sliceStep_head (a : Elem) (t : List Elem) (step : ℕ) :
    a ∈ sliceStep (a :: t) step := by
  simp only [sliceStep, List.mem_map]
  refine ⟨(0, a), ?_, rfl⟩
  rw [List.mem_filter]
  constructor
  · exact List.mem_enum_iff_get?.mpr rfl
  · simp

theorem Field_int_ok {f : Field} {s : List Char} {v : ℕ} (h : Field.int f s = .ok v) :
    v ∈ RANGES f := by
  simp only [Field.int] at h
  split at h
  · rename_i hc
    obtain ⟨hf, hmem⟩ := hc
    cases h
    subst hf
    simp only [SYMBOLIC_MONTHS, List.mem_cons, List.not_mem_nil, or_false] at hmem
    rcases hmem with h1|h1|h1|h1|h1|h1|h1|h1|h1|h1|h1|h1 <;> rw [h1] <;> decide
  · split at h
    · rename_i hc
      obtain ⟨hf, hmem⟩ := hc
      cases h
      subst hf
      simp only [SYMBOLIC_DAYS, List.mem_cons, List.not_mem_nil, or_false] at hmem
      rcases hmem with h1|h1|h1|h1|h1|h1|h1 <;> rw [h1] <;> decide
    · cases hI : _int s 0 with
      | error e =>
        rw [hI, errBind] at h
        cases h
      | ok a =>
        rw [hI, okBind] at h
        split at h
        · rename_i hmem
          cases h
          exact hmem
        · cases h

theorem _int_err_shape {s : List Char} {minv : ℕ} {er : CronErr}
    (h : _int s minv = .error er) : er = .badValue s := by
  simp only [_int] at h
  split at h
  · cases h; rfl
  · split at h
    · cases h; rfl
    · cases h

theorem Field_int_err_shape {f : Field} {s : List Char} {er : CronErr}
    (h : Field.int f s = .error er) : er = .badValue s := by
  simp only [Field.int] at h
  split at h
  · cases h
  · split at h
    · cases h
    · cases hI : _int s 0 with
      | error e =>
        rw [hI, errBind] at h
        cases h
        exact _int_err_shape hI
      | ok a =>
        rw [hI, okBind] at h
        split at h
        · cases h
        · cases h; rfl

theorem stepSelect_err_shape {f : Field} {items0 : Finset Elem} {step : ℕ} {er : CronErr}
    (h : stepSelect f items0 step = .error er) : er = .badValue [] := by
  simp only [stepSelect] at h
  split at h
  · cases h
  · split at h
    · split at h
      · cases h
      · cases h; rfl
    · cases h

/-- The ok-conclusions of folding set union over the comma-terms. -/
theorem foldUnion_ok {fuel : ℕ} {f : Field} (l : List (List Char)) :
    ∀ acc S : Finset Elem,
      l.foldlM (fun acc term => do
        let r ← parseF fuel f term
        pure (acc ∪ r)) acc = .ok S →
      acc ⊆ S ∧
      (∀ g ∈ l, ∃ R, parseF fuel f g = .ok R ∧ R ⊆ S) ∧
      (∀ e ∈ S, e ∈ acc ∨ ∃ g ∈ l, ∃ R, parseF fuel f g = .ok R ∧ e ∈ R) := by
  induction l with
  | nil =>
    intro acc S h
    simp only [List.foldlM_nil] at h
    cases h
    exact ⟨subset_rfl, by simp, fun e he => Or.inl he⟩
  | cons g gs ih =>
    intro acc S h
    simp only [List.foldlM_cons] at h
    cases hg : parseF fuel f g with
    | error e =>
      rw [hg] at h
      simp only [errBind] at h
      cases h
    | ok R =>
      rw [hg] at h
      simp only [okBind] at h
      obtain ⟨hsub, hall, helem⟩ := ih (acc ∪ R) S h
      refine ⟨subset_trans Finset.subset_union_left hsub, ?_, ?_⟩
      · intro g' hg'
        rcases List.mem_cons.mp hg' with rfl | hmem
        · exact ⟨R, hg, subset_trans Finset.subset_union_right hsub⟩
        · exact hall g' hmem
      · intro e he
        rcases helem e he with hacc | hrest
        · rcases Finset.mem_union.mp hacc with h1 | h1
          · exact Or.inl h1
          · exact Or.inr ⟨g, List.mem_cons_self g gs, R, hg, h1⟩
        · obtain ⟨g', hg', R', hR', he'⟩ := hrest
          exact Or.inr ⟨g', List.mem_cons_of_mem g hg', R', hR', he'⟩

/-- An error of the comma-fold comes from one of the comma-terms. -/
theorem foldUnion_err {fuel : ℕ} {f : Field} (l : List (List Char)) :
    ∀ (acc : Finset Elem) (er : CronErr),
      l.foldlM (fun acc term => do
        let r ← parseF fuel f term
        pure (acc ∪ r)) acc = .error er →
      ∃ g ∈ l, parseF fuel f g = .error er := by
  induction l with
  | nil =>
    intro acc er h
    simp only [List.foldlM_nil] at h
    cases h
  | cons g gs ih =>
    intro acc er h
    simp only [List.foldlM_cons] at h
    cases hg : parseF fuel f g with
    | error e =>
      rw [hg] at h
      simp only [errBind] at h
      cases h
      exact ⟨g, List.mem_cons_self g gs, hg⟩
    | ok R =>
      rw [hg] at h
      simp only [okBind] at h
      obtain ⟨g', hg', hpe⟩ := ih (acc ∪ R) er h
      exact ⟨g', List.mem_cons_of_mem g hg', hpe⟩

/-- `stepSelect` preserves non-emptiness and the per-field element
invariant. -/
theorem stepSelect_ok {f : Field} {items0 : Finset Elem} {step : ℕ} {S : Finset Elem}
    (hne : items0.Nonempty) (hel : ∀ e ∈ items0, ElemOK f e)
    (h : stepSelect f items0 step = .ok S) :
    S.Nonempty ∧ ∀ e ∈ S, ElemOK f e := by
  simp only [stepSelect] at h
  split at h
  · rename_i hLast
    cases h
    exact ⟨hne, hel⟩
  · rename_i hLast
    split at h
    · rename_i hlen
      split at h
      · rename_i items start heq
        cases h
        have hstartmem : Elem.nat start ∈ items0 := by
          rw [← mem_sortedElems, heq]
          exact List.mem_singleton.mpr rfl
        have hstart : start ∈ RANGES f := by
          have hh := hel _ hstartmem
          simp only [ElemOK] at hh
          rcases hh with hin | ⟨_, hlastval⟩
          · exact hin
          · exact absurd (by rw [heq, hlastval]) hLast
        obtain ⟨hmin, hmax⟩ := mem_RANGES_iff.mp hstart
        have hlen' : 1 ≤ maxRange f + 1 - start := by omega
        have hcons : (List.range' start (maxRange f + 1 - start)).map Elem.nat =
            Elem.nat start :: (List.range' (start + 1) (maxRange f - start)).map Elem.nat := by
          have : maxRange f + 1 - start = (maxRange f - start) + 1 := by omega
          rw [this, List.range'_succ, List.map_cons]
        constructor
        · refine ⟨Elem.nat start, List.mem_toFinset.mpr ?_⟩
          rw [hcons]
          exact sliceStep_head _ _ _
        · intro e he
          have hmem := sliceStep_subset (List.mem_toFinset.mp he)
          rw [List.mem_map] at hmem
          obtain ⟨n, hn, rfl⟩ := hmem
          rw [List.mem_range'_1] at hn
          exact Or.inl (mem_RANGES_iff.mpr ⟨by omega, by omega⟩)
      · cases h
    · cases h
      obtain ⟨a, ha⟩ := hne
      have hsa : a ∈ sortedElems items0 := mem_sortedElems.mpr ha
      obtain ⟨x, t, hxt⟩ := List.exists_cons_of_ne_nil (List.ne_nil_of_mem hsa)
      constructor
      · refine ⟨x, List.mem_toFinset.mpr ?_⟩
        rw [hxt]
        exact sliceStep_head _ _ _
      · intro e he
        have := sliceStep_subset (List.mem_toFinset.mp he)
        exact hel e (mem_sortedElems.mp this)

/-- `Field.parse` never yields an empty set, and every element respects
the per-field invariant. -/
theorem parseF_ok {f : Field} :
    ∀ fuel (s : List Char) (S : Finset Elem), parseF fuel f s = .ok S →
      S.Nonempty ∧ ∀ e ∈ S, ElemOK f e := by
  intro fuel
  induction fuel with
  | zero => intro s S h; cases h
  | succ fuel ih =>
    intro s S h
    simp only [parseF] at h
    split at h
    · -- "*"
      cases h
      refine ⟨(ranges_nonempty f).image Elem.nat, ?_⟩
      intro e he
      obtain ⟨n, hn, rfl⟩ := Finset.mem_image.mp he
      exact Or.inl hn
    · split at h
      · -- comma list
        obtain ⟨hsub, hall, helem⟩ := foldUnion_ok (splitOnC ',' s) ∅ S h
        constructor
        · obtain ⟨g, t, hgt⟩ := List.exists_cons_of_ne_nil (splitOnP_ne_nil (· = ',') s)
          obtain ⟨R, hR, hRS⟩ := hall g (by rw [splitOnC, hgt]; exact List.mem_cons_self g t)
          obtain ⟨a, ha⟩ := (ih g R hR).1
          exact ⟨a, hRS ha⟩
        · intro e he
          rcases helem e he with hacc | ⟨g, _, R, hR, heR⟩
          · cases Finset.not_mem_empty e hacc
          · exact (ih g R hR).2 e heR
      · split at h
        · -- "#" on the day-of-week field
          rename_i hc
          cases hnth : _int (splitOnceC '#' s).2 1 with
          | error e => rw [hnth, errBind] at h; cases h
          | ok nth =>
            rw [hnth, okBind] at h
            cases hv : Field.int f (splitOnceC '#' s).1 with
            | error e => rw [hv, errBind] at h; cases h
            | ok v =>
              rw [hv, okBind] at h
              cases h
              refine ⟨⟨Elem.pair v nth, Finset.mem_singleton_self _⟩, ?_⟩
              intro e he
              cases Finset.mem_singleton.mp he
              simp only [ElemOK]
              refine ⟨hc.2, ?_, (_int_ok hnth).2.2.2⟩
              rw [← hc.2]
              exact Field_int_ok hv
        · split at h
          · -- "term/step"
            cases hstep : _int (splitOnceC '/' s).2 1 with
            | error e => rw [hstep, errBind] at h; cases h
            | ok step =>
              rw [hstep, okBind] at h
              cases hitems : parseF fuel f (splitOnceC '/' s).1 with
              | error e => rw [hitems, errBind] at h; cases h
              | ok items0 =>
                rw [hitems, okBind] at h
                obtain ⟨hne, hel⟩ := ih _ _ hitems
                exact stepSelect_ok hne hel h
          · split at h
            · -- "start-end"
              cases hstart : Field.int f (splitOnceC '-' s).1 with
              | error e => rw [hstart, errBind] at h; cases h
              | ok start =>
                rw [hstart, okBind] at h
                cases hend : Field.int f (splitOnceC '-' s).2 with
                | error e => rw [hend, errBind] at h; cases h
                | ok e2 =>
                  rw [hend, okBind] at h
                  split at h
                  · cases h
                  · rename_i hlt
                    cases h
                    obtain ⟨hs1, hs2⟩ := mem_RANGES_iff.mp (Field_int_ok hstart)
                    obtain ⟨he1, he2⟩ := mem_RANGES_iff.mp (Field_int_ok hend)
                    constructor
                    · refine ⟨Elem.nat start, List.mem_toFinset.mpr ?_⟩
                      rw [List.mem_map]
                      exact ⟨start, List.mem_range'_1.mpr ⟨le_refl _, by omega⟩, rfl⟩
                    · intro e he
                      obtain ⟨n, hn, rfl⟩ := List.mem_map.mp (List.mem_toFinset.mp he)
                      rw [List.mem_range'_1] at hn
                      exact Or.inl (mem_RANGES_iff.mpr ⟨by omega, by omega⟩)
            · split at h
              · -- "L" on the day field
                rename_i hc
                cases h
                refine ⟨⟨Elem.nat LAST, Finset.mem_singleton_self _⟩, ?_⟩
                intro e he
                cases Finset.mem_singleton.mp he
                exact Or.inr ⟨hc.1, rfl⟩
              · -- bare value
                cases hv : Field.int f s with
                | error e => rw [hv, errBind] at h; cases h
                | ok v =>
                  rw [hv, okBind] at h
                  cases h
                  refine ⟨⟨Elem.nat v, Finset.mem_singleton_self _⟩, ?_⟩
                  intro e he
                  cases Finset.mem_singleton.mp he
                  exact Or.inl (Field_int_ok hv)

/-- Every error `Field.parse` raises is a bad-value or range error —
never the wrong-field-count error. -/
theorem parseF_err_shape {f : Field} :
    ∀ fuel (s : List Char) (er : CronErr), parseF fuel f s = .error er →
      er ≠ CronErr.wrongFieldCount := by
  intro fuel
  induction fuel with
  | zero =>
    intro s er h
    cases h
    intro hc
    cases hc
  | succ fuel ih =>
    intro s er h
    simp only [parseF] at h
    split at h
    · cases h
    · split at h
      · obtain ⟨g, _, hg⟩ := foldUnion_err (splitOnC ',' s) ∅ er h
        exact ih g er hg
      · split at h
        · cases hnth : _int (splitOnceC '#' s).2 1 with
          | error e =>
            rw [hnth, errBind] at h
            cases h
            rw [_int_err_shape hnth]
            intro hc
            cases hc
          | ok nth =>
            rw [hnth, okBind] at h
            cases hv : Field.int f (splitOnceC '#' s).1 with
            | error e =>
              rw [hv, errBind] at h
              cases h
              rw [Field_int_err_shape hv]
              intro hc
              cases hc
            | ok v =>
              rw [hv, okBind] at h
              cases h
        · split at h
          · cases hstep : _int (splitOnceC '/' s).2 1 with
            | error e =>
              rw [hstep, errBind] at h
              cases h
              rw [_int_err_shape hstep]
              intro hc
              cases hc
            | ok step =>
              rw [hstep, okBind] at h
              cases hitems : parseF fuel f (splitOnceC '/' s).1 with
              | error e =>
                rw [hitems, errBind] at h
                cases h
                exact ih _ er hitems
              | ok items0 =>
                rw [hitems, okBind] at h
                rw [stepSelect_err_shape h]
                intro hc
                cases hc
          · split at h
            · cases hstart : Field.int f (splitOnceC '-' s).1 with
              | error e =>
                rw [hstart, errBind] at h
                cases h
                rw [Field_int_err_shape hstart]
                intro hc
                cases hc
              | ok start =>
                rw [hstart, okBind] at h
                cases hend : Field.int f (splitOnceC '-' s).2 with
                | error e =>
                  rw [hend, errBind] at h
                  cases h
                  rw [Field_int_err_shape hend]
                  intro hc
                  cases hc
                | ok e2 =>
                  rw [hend, okBind] at h
                  split at h
                  · cases h
                    intro hc
                    cases hc
                  · cases h
            · split at h
              · cases h
              · cases hv : Field.int f s with
                | error e =>
                  rw [hv, errBind] at h
                  cases h
                  rw [Field_int_err_shape hv]
                  intro hc
                  cases hc
                | ok v =>
                  rw [hv, okBind] at h
                  cases h

/-- Decomposition of a successful six-field parse. -/
theorem parseFields_parts {p0 p1 p2 p3 p4 p5 : List Char} {spec : Spec}
    (h : parseFields p0 p1 p2 p3 p4 p5 = .ok spec) :
    ∃ m hh d0 mo w0 se,
      parseTop Field.minute p0 = .ok m ∧ parseTop Field.hour p1 = .ok hh ∧
      parseTop Field.day p2 = .ok d0 ∧ parseTop Field.month p3 = .ok mo ∧
      parseTop Field.dow p4 = .ok w0 ∧ parseTop Field.second p5 = .ok se ∧
      spec = ⟨m, hh, (disjunctionRule d0 w0).1, mo, (disjunctionRule d0 w0).2, se⟩ := by
  simp only [parseFields] at h
  cases h0 : parseTop Field.minute p0 with
  | error e => rw [h0, errBind] at h; cases h
  | ok m =>
  rw [h0, okBind] at h
  cases h1 : parseTop Field.hour p1 with
  | error e => rw [h1, errBind] at h; cases h
  | ok hh =>
  rw [h1, okBind] at h
  cases h2 : parseTop Field.day p2 with
  | error e => rw [h2, errBind] at h; cases h
  | ok d0 =>
  rw [h2, okBind] at h
  cases h3 : parseTop Field.month p3 with
  | error e => rw [h3, errBind] at h; cases h
  | ok mo =>
  rw [h3, okBind] at h
  cases h4 : parseTop Field.dow p4 with
  | error e => rw [h4, errBind] at h; cases h
  | ok w0 =>
  rw [h4, okBind] at h
  cases h5 : parseTop Field.second p5 with
  | error e => rw [h5, errBind] at h; cases h
  | ok se =>
  rw [h5, okBind] at h
  cases h
  exact ⟨m, hh, d0, mo, w0, se, rfl, rfl, rfl, rfl, rfl, rfl, rfl⟩

/-- `parseFields` never raises the wrong-field-count error (its errors
come from field parsing). -/
theorem parseFields_ne_wfc (p0 p1 p2 p3 p4 p5 : List Char) :
    parseFields p0 p1 p2 p3 p4 p5 ≠ .error .wrongFieldCount := by
  intro h
  simp only [parseFields] at h
  cases h0 : parseTop Field.minute p0 with
  | error e =>
    rw [h0, errBind] at h
    cases h
    exact parseF_err_shape _ _ _ h0 rfl
  | ok m =>
  rw [h0, okBind] at h
  cases h1 : parseTop Field.hour p1 with
  | error e =>
    rw [h1, errBind] at h
    cases h
    exact parseF_err_shape _ _ _ h1 rfl
  | ok hh =>
  rw [h1, okBind] at h
  cases h2 : parseTop Field.day p2 with
  | error e =>
    rw [h2, errBind] at h
    cases h
    exact parseF_err_shape _ _ _ h2 rfl
  | ok d0 =>
  rw [h2, okBind] at h
  cases h3 : parseTop Field.month p3 with
  | error e =>
    rw [h3, errBind] at h
    cases h
    exact parseF_err_shape _ _ _ h3 rfl
  | ok mo =>
  rw [h3, okBind] at h
  cases h4 : parseTop Field.dow p4 with
  | error e =>
    rw [h4, errBind] at h
    cases h
    exact parseF_err_shape _ _ _ h4 rfl
  | ok w0 =>
  rw [h4, okBind] at h
  cases h5 : parseTop Field.second p5 with
  | error e =>
    rw [h5, errBind] at h
    cases h
    exact parseF_err_shape _ _ _ h5 rfl
  | ok se =>
  rw [h5, okBind] at h
  cases h

theorem ElemOK_int_field {f : Field} (hd : f ≠ Field.day) (hw : f ≠ Field.dow) {e : Elem}
    (h : ElemOK f e) : ∃ n ∈ RANGES f, e = Elem.nat n := by
  cases e with
  | nat n =>
    simp only [ElemOK] at h
    rcases h with hin | ⟨hday, _⟩
    · exact ⟨n, hin, rfl⟩
    · exact absurd hday hd
  | pair a b =>
    simp only [ElemOK] at h
    exact absurd h.1 hw

theorem ElemOK_day {e : Elem} (h : ElemOK Field.day e) :
    ∃ n ∈ Finset.Icc 1 31 ∪ {LAST}, e = Elem.nat n := by
  cases e with
  | nat n =>
    simp only [ElemOK] at h
    rcases h with hin | ⟨_, hlast⟩
    · exact ⟨n, Finset.mem_union_left _ hin, rfl⟩
    · exact ⟨n, Finset.mem_union_right _ (by simp [hlast]), rfl⟩
  | pair a b =>
    simp only [ElemOK] at h
    cases h.1

theorem ElemOK_dow {e : Elem} (h : ElemOK Field.dow e) : WdOK e := by
  cases e with
  | nat n =>
    simp only [ElemOK, WdOK] at h ⊢
    rcases h with hin | ⟨hday, _⟩
    · simpa [RANGES] using hin
    · cases hday
  | pair a b =>
    simp only [ElemOK, WdOK] at h ⊢
    exact ⟨by simpa [RANGES] using h.2.1, h.2.2⟩

/-- The disjunction rule returns subsets and never empties both sides. -/
theorem disjunctionRule_shape {D W : Finset Elem} (hD : D.Nonempty) (hW : W.Nonempty) :
    ((disjunctionRule D W).1 = D ∨ (disjunctionRule D W).1 = ∅) ∧
    ((disjunctionRule D W).2 = W ∨ (disjunctionRule D W).2 = ∅) ∧
    ¬((disjunctionRule D W).1 = ∅ ∧ (disjunctionRule D W).2 = ∅) := by
  simp only [disjunctionRule]
  split_ifs with h1 h2 h2
  · exact absurd h2.1 h1.2
  · refine ⟨Or.inr rfl, Or.inl rfl, fun ⟨_, hw⟩ => ?_⟩
    obtain ⟨w, hwmem⟩ := hW
    rw [hw] at hwmem
    exact Finset.not_mem_empty w hwmem
  · refine ⟨Or.inl rfl, Or.inr rfl, fun ⟨hd, _⟩ => ?_⟩
    obtain ⟨d, hdmem⟩ := hD
    rw [hd] at hdmem
    exact Finset.not_mem_empty d hdmem
  · refine ⟨Or.inl rfl, Or.inl rfl, fun ⟨hd, _⟩ => ?_⟩
    obtain ⟨d, hdmem⟩ := hD
    rw [hd] at hdmem
    exact Finset.not_mem_empty d hdmem

/-- A successful six-field parse yields a well-formed spec, with the
seconds set as parsed from the sixth field. -/
theorem parseFields_wf {p0 p1 p2 p3 p4 p5 : List Char} {spec : Spec}
    (h : parseFields p0 p1 p2 p3 p4 p5 = .ok spec) :
    WFSpec spec ∧ ∀ se, parseTop Field.second p5 = .ok se → spec.seconds = se := by
  obtain ⟨m, hh, d0, mo, w0, se, h0, h1, h2, h3, h4, h5, rfl⟩ := parseFields_parts h
  obtain ⟨hm_ne, hm_ok⟩ := parseF_ok _ _ _ h0
  obtain ⟨hh_ne, hh_ok⟩ := parseF_ok _ _ _ h1
  obtain ⟨hd_ne, hd_ok⟩ := parseF_ok _ _ _ h2
  obtain ⟨hmo_ne, hmo_ok⟩ := parseF_ok _ _ _ h3
  obtain ⟨hw_ne, hw_ok⟩ := parseF_ok _ _ _ h4
  obtain ⟨hse_ne, hse_ok⟩ := parseF_ok _ _ _ h5
  obtain ⟨hdsub, hwsub, hboth⟩ := disjunctionRule_shape hd_ne hw_ne
  constructor
  · refine ⟨⟨hm_ne, ?_⟩, ⟨hh_ne, ?_⟩, ⟨hse_ne, ?_⟩, ⟨hmo_ne, ?_⟩, ?_, ?_, ?_⟩
    · intro e he
      simpa [RANGES] using ElemOK_int_field (by simp) (by simp) (hm_ok e he)
    · intro e he
      simpa [RANGES] using ElemOK_int_field (by simp) (by simp) (hh_ok e he)
    · intro e he
      simpa [RANGES] using ElemOK_int_field (by simp) (by simp) (hse_ok e he)
    · intro e he
      simpa [RANGES] using ElemOK_int_field (by simp) (by simp) (hmo_ok e he)
    · intro e he
      rcases hdsub with hEq | hEq
      · exact ElemOK_day (hd_ok e (hEq ▸ he))
      · rw [hEq] at he
        cases Finset.not_mem_empty e he
    · intro e he
      rcases hwsub with hEq | hEq
      · exact ElemOK_dow (hw_ok e (hEq ▸ he))
      · rw [hEq] at he
        cases Finset.not_mem_empty e he
    · exact hboth
  · intro se' hse'
    rw [h5] at hse'
    cases hse'
    rfl

/-- `cronParse` raises the wrong-field-count error exactly when the
whitespace split has neither 5 nor 6 parts. -/
theorem cronParse_wfc_iff (expr : List Char) :
    cronParse expr = .error .wrongFieldCount ↔
      ¬((pysplit expr).length = 5 ∨ (pysplit expr).length = 6) := by
  have main : ∀ l : List (List Char), pysplit expr = l →
      (cronParse expr = .error .wrongFieldCount ↔ ¬(l.length = 5 ∨ l.length = 6)) := by
    intro l hl
    rcases l with _ | ⟨a, _ | ⟨b, _ | ⟨c, _ | ⟨d, _ | ⟨e, _ | ⟨f, _ | ⟨g, rest⟩⟩⟩⟩⟩⟩⟩
    · simp [cronParse, hl]
    · simp [cronParse, hl]
    · simp [cronParse, hl]
    · simp [cronParse, hl]
    · simp [cronParse, hl]
    · have hc : cronParse expr = parseFields a b c d e ['0'] := by
        simp [cronParse, hl]
      rw [hc]
      exact iff_of_false (parseFields_ne_wfc _ _ _ _ _ _) (by simp)
    · have hc : cronParse expr = parseFields a b c d e f := by
        simp [cronParse, hl]
      rw [hc]
      exact iff_of_false (parseFields_ne_wfc _ _ _ _ _ _) (by simp)
    · have hc : cronParse expr = .error .wrongFieldCount := by
        simp only [cronParse, hl]
        rw [if_neg (by simp only [List.length_cons]; omega)]
      rw [hc]
      exact iff_of_true rfl (by simp only [List.length_cons]; omega)
  exact main _ rfl

/-- A successful compile comes from a 5- or 6-part split, with the sixth
field defaulted to `"0"` in the 5-part case. -/
theorem cronParse_ok_parts {expr : List Char} {spec : Spec}
    (h : cronParse expr = .ok spec) :
    ∃ p0 p1 p2 p3 p4 p5, parseFields p0 p1 p2 p3 p4 p5 = .ok spec ∧
      ((pysplit expr).length = 5 → p5 = ['0']) := by
  have main : ∀ l : List (List Char), pysplit expr = l →
      ∃ p0 p1 p2 p3 p4 p5, parseFields p0 p1 p2 p3 p4 p5 = .ok spec ∧
        (l.length = 5 → p5 = ['0']) := by
    intro l hl
    rcases l with _ | ⟨a, _ | ⟨b, _ | ⟨c, _ | ⟨d, _ | ⟨e, _ | ⟨f, _ | ⟨g, rest⟩⟩⟩⟩⟩⟩⟩
    · simp [cronParse, hl] at h
    · simp [cronParse, hl] at h
    · simp [cronParse, hl] at h
    · simp [cronParse, hl] at h
    · simp [cronParse, hl] at h
    · have hc : cronParse expr = parseFields a b c d e ['0'] := by simp [cronParse, hl]
      rw [hc] at h
      exact ⟨a, b, c, d, e, ['0'], h, fun _ => rfl⟩
    · have hc : cronParse expr = parseFields a b c d e f := by simp [cronParse, hl]
      rw [hc] at h
      exact ⟨a, b, c, d, e, f, h, by simp⟩
    · exfalso
      have hc : cronParse expr = .error .wrongFieldCount := by
        simp only [cronParse, hl]
        rw [if_neg (by simp only [List.length_cons]; omega)]
      rw [hc] at h
      cases h
  obtain ⟨p0, p1, p2, p3, p4, p5, hp, hdef⟩ := main _ rfl
  exact ⟨p0, p1, p2, p3, p4, p5, hp, hdef⟩

/-- Compilation always yields a well-formed spec. -/
theorem cronParse_wf {expr : List Char} {spec : Spec} (h : cronParse expr = .ok spec) :
    WFSpec spec := by
  obtain ⟨p0, p1, p2, p3, p4, p5, hp, _⟩ := cronParse_ok_parts h
  exact (parseFields_wf hp).1

/-- With 5 fields, the compiled seconds set is `{0}`. -/
theorem cronParse_seconds {expr : List Char} {spec : Spec}
    (h : cronParse expr = .ok spec) (h5 : (pysplit expr).length = 5) :
    spec.seconds = {Elem.nat 0} := by
  obtain ⟨p0, p1, p2, p3, p4, p5, hp, hdef⟩ := cronParse_ok_parts h
  have h50 := hdef h5
  subst h50
  exact (parseFields_wf hp).2 {Elem.nat 0} (by decide)

theorem digits_all {s : List Char} (h : isdigitStr s = true) :
    ∀ c ∈ s, c.isDigit = true := by
  simp only [isdigitStr, Bool.and_eq_true, List.all_eq_true] at h
  exact h.2

theorem digits_not_symbolic {s : List Char} (hl : s.length ≤ 2) :
    s.map Char.toUpper ∉ SYMBOLIC_MONTHS ∧ s.map Char.toUpper ∉ SYMBOLIC_DAYS := by
  have hmap : (s.map Char.toUpper).length ≤ 2 := by simpa using hl
  have h3M : ∀ t ∈ SYMBOLIC_MONTHS, t.length = 3 := by decide
  have h3D : ∀ t ∈ SYMBOLIC_DAYS, t.length = 3 := by decide
  constructor
  · intro hmem
    have := h3M _ hmem
    omega
  · intro hmem
    have := h3D _ hmem
    omega

theorem _int_eval {s : List Char} (hd : isdigitStr s = true) (hl : s.length ≤ 2) :
    _int s 0 = .ok (strVal s) := by
  simp only [_int]
  rw [if_neg (by simp [hd]; omega), if_neg (by omega)]

/-- `Field.int` on a short digit token is just the domain-checked value. -/
theorem Field_int_digits {f : Field} {s : List Char} (hd : isdigitStr s = true)
    (hl : s.length ≤ 2) :
    Field.int f s = if strVal s ∈ RANGES f then .ok (strVal s) else .error (.badValue s) := by
  obtain ⟨hM, hD⟩ := @digits_not_symbolic s hl
  simp only [Field.int]
  rw [if_neg (fun hh => hM hh.2), if_neg (fun hh => hD hh.2), _int_eval hd hl, okBind]
  split <;> rfl

/-- A numeric range whose end is smaller than its start never parses. -/
theorem parse_range_err {f : Field} {s1 s2 : List Char}
    (h1 : isdigitStr s1 = true) (h2 : isdigitStr s2 = true)
    (hl1 : s1.length ≤ 2) (hl2 : s2.length ≤ 2)
    (hv : strVal s2 < strVal s1) :
    ∃ er, parseTop f (s1 ++ '-' :: s2) = .error er := by
  have hdash : '-' ∈ s1 ++ '-' :: s2 := List.mem_append_right _ (List.mem_cons_self _ _)
  have hchars : ∀ c ∈ s1 ++ '-' :: s2, c.isDigit = true ∨ c = '-' := by
    intro c hc
    rcases List.mem_append.mp hc with hin | hin
    · exact Or.inl (digits_all h1 c hin)
    · rcases List.mem_cons.mp hin with rfl | hin2
      · exact Or.inr rfl
      · exact Or.inl (digits_all h2 c hin2)
  simp only [parseTop, parseF]
  rw [if_neg (fun heq => by rw [heq] at hdash; simp at hdash)]
  rw [if_neg (fun hc => by rcases hchars ',' hc with hh | hh <;> simp at hh)]
  rw [if_neg (fun hc => by rcases hchars '#' hc.1 with hh | hh <;> simp at hh)]
  rw [if_neg (fun hc => by rcases hchars '/' hc with hh | hh <;> simp at hh)]
  rw [if_pos hdash]
  have hnot1 : '-' ∉ s1 := fun hin => by
    have := digits_all h1 '-' hin
    simp at this
  rw [splitOnceC_append hnot1]
  rw [Field_int_digits h1 hl1]
  by_cases hr1 : strVal s1 ∈ RANGES f
  · rw [if_pos hr1, okBind, Field_int_digits h2 hl2]
    by_cases hr2 : strVal s2 ∈ RANGES f
    · rw [if_pos hr2, okBind, if_pos hv]
      exact ⟨.rangeErr, rfl⟩
    · rw [if_neg hr2, errBind]
      exact ⟨.badValue s2, rfl⟩
  · rw [if_neg hr1, errBind]
    exact ⟨.badValue s1, rfl⟩

/-- A term containing `#` fails to parse on every field other than
day-of-week. -/
theorem parse_hash_err {f : Field} (hf : f ≠ Field.dow) :
    ∀ fuel (s : List Char), '#' ∈ s → ∃ er, parseF fuel f s = .error er := by
  intro fuel
  induction fuel with
  | zero => intro s _; exact ⟨.rangeErr, rfl⟩
  | succ fuel ih =>
    intro s hs
    simp only [parseF]
    rw [if_neg (fun heq => by rw [heq] at hs; simp at hs)]
    by_cases hcomma : ',' ∈ s
    · rw [if_pos hcomma]
      obtain ⟨g, hg, hcg⟩ := @splitOnP_exists_mem (fun c => c = ',') _ _ hs (by decide)
      obtain ⟨er, her⟩ := ih g hcg
      cases hfold : (splitOnC ',' s).foldlM (fun acc term => do
          let r ← parseF fuel f term
          pure (acc ∪ r)) ∅ with
      | error e => exact ⟨e, rfl⟩
      | ok S =>
        exfalso
        obtain ⟨_, hall, _⟩ := foldUnion_ok _ _ _ hfold
        obtain ⟨R, hR, _⟩ := hall g hg
        rw [her] at hR
        cases hR
    · rw [if_neg hcomma, if_neg (fun hc => hf hc.2)]
      by_cases hslash : '/' ∈ s
      · rw [if_pos hslash]
        obtain ⟨hsplit, hnotin⟩ := splitOnceC_recover hslash
        by_cases hstep : '#' ∈ (splitOnceC '/' s).2
        · rw [_int_err_of_not_digit (isdigitStr_false_of_mem hstep (by decide)), errBind]
          exact ⟨_, rfl⟩
        · have hterm : '#' ∈ (splitOnceC '/' s).1 := by
            rw [hsplit] at hs
            rcases List.mem_append.mp hs with hin | hin
            · exact hin
            · rcases List.mem_cons.mp hin with heq | hin2
              · cases heq
              · exact absurd hin2 hstep
          cases hst : _int (splitOnceC '/' s).2 1 with
          | error e =>
            rw [errBind]
            exact ⟨e, rfl⟩
          | ok step =>
            rw [okBind]
            obtain ⟨er, her⟩ := ih _ hterm
            rw [her, errBind]
            exact ⟨er, rfl⟩
      · rw [if_neg hslash]
        by_cases hdash : '-' ∈ s
        · rw [if_pos hdash]
          obtain ⟨hsplit, hnotin⟩ := splitOnceC_recover hdash
          by_cases hstart : '#' ∈ (splitOnceC '-' s).1
          · rw [Field_int_err_of_special hstart (Or.inl rfl) (by decide) (by decide), errBind]
            exact ⟨_, rfl⟩
          · have hend : '#' ∈ (splitOnceC '-' s).2 := by
              rw [hsplit] at hs
              rcases List.mem_append.mp hs with hin | hin
              · exact absurd hin hstart
              · rcases List.mem_cons.mp hin with heq | hin2
                · cases heq
                · exact hin2
            cases hS : Field.int f (splitOnceC '-' s).1 with
            | error e =>
              rw [errBind]
              exact ⟨e, rfl⟩
            | ok v =>
              rw [okBind,
                Field_int_err_of_special hend (Or.inl rfl) (by decide) (by decide), errBind]
              exact ⟨_, rfl⟩
        · rw [if_neg hdash]
          rw [if_neg (fun hc => by
            rcases hc.2 with heq | heq <;> (rw [heq] at hs; simp at hs))]
          rw [Field_int_err_of_special hs (Or.inl rfl) (by decide) (by decide), errBind]
          exact ⟨_, rfl⟩

/-- `term#nth` with `nth` = 0 is rejected on the day-of-week field. -/
theorem parse_nth_zero_err {term nthS : List Char}
    (hterm1 : ',' ∉ term) (hterm2 : '#' ∉ term)
    (hd : isdigitStr nthS = true) (hzero : strVal nthS = 0) :
    ∃ er, parseTop Field.dow (term ++ '#' :: nthS) = .error er := by
  have hhash : '#' ∈ term ++ '#' :: nthS := List.mem_append_right _ (List.mem_cons_self _ _)
  simp only [parseTop, parseF]
  rw [if_neg (fun heq => by rw [heq] at hhash; simp at hhash)]
  rw [if_neg (fun hc => by
    rcases List.mem_append.mp hc with hin | hin
    · exact hterm1 hin
    · rcases List.mem_cons.mp hin with heq | hin2
      · cases heq
      · have := digits_all hd ',' hin2
        simp at this)]
  rw [if_pos ⟨hhash, trivial⟩, splitOnceC_append hterm2]
  have herr : _int nthS 1 = .error (.badValue nthS) := by
    simp only [_int]
    split
    · rfl
    · rw [if_pos (by omega)]
  rw [herr, errBind]
  exact ⟨_, rfl⟩

/-- A bare `L` / `l` is rejected on every field other than day-of-month. -/
theorem parse_L_err : ∀ f : Field, f ≠ Field.day →
    parseTop f ['L'] = .error (.badValue ['L']) ∧
      parseTop f ['l'] = .error (.badValue ['l']) := by
  intro f hf
  cases f
  · exact ⟨by decide, by decide⟩
  · exact ⟨by decide, by decide⟩
  · exact absurd rfl hf
  · exact ⟨by decide, by decide⟩
  · exact ⟨by decide, by decide⟩
  · exact ⟨by decide, by decide⟩

/-- The compiled form of `"* * * * 1"`. -/
def dowSpec : Spec :=
  ⟨RANGESE Field.minute, RANGESE Field.hour, ∅, RANGESE Field.month,
    {Elem.nat 1}, {Elem.nat 0}⟩

/-! ## C8: field count -/

/-- C8: compilation fails with the wrong-field-count error exactly when
the whitespace-split expression has neither 5 nor 6 fields, and with 5
fields the second field defaults to `"0"`, so the compiled second set is
`{0}`. -/
theorem c8_field_count :
    ∀ expr : List Char,
      (cronParse expr = .error .wrongFieldCount ↔
        ¬((pysplit expr).length = 5 ∨ (pysplit expr).length = 6)) ∧
      ((pysplit expr).length = 5 →
        ∀ spec, cronParse expr = .ok spec → spec.seconds = {Elem.nat 0}) :=
  fun expr =>
    ⟨cronParse_wfc_iff expr, fun h5 _ hok => cronParse_seconds hok h5⟩

/-! ## C9: malformed-input rejection -/

/-- C9: compilation rejects (with an error, accepting no partial
expression) 4- and 7-field expressions, ranges with end < start, `#` on
any field other than day-of-week, `#nth` with nth < 1, and `L` on any
field other than day-of-month. -/
theorem c9_malformed_rejection :
    (∀ expr : List Char, (pysplit expr).length = 4 ∨ (pysplit expr).length = 7 →
      cronParse expr = .error .wrongFieldCount) ∧
    (∀ (f : Field) (s1 s2 : List Char), isdigitStr s1 = true → isdigitStr s2 = true →
      s1.length ≤ 2 → s2.length ≤ 2 → strVal s2 < strVal s1 →
      ∃ er, parseTop f (s1 ++ '-' :: s2) = .error er) ∧
    (∀ f : Field, f ≠ Field.dow → ∀ fuel s, '#' ∈ s →
      ∃ er, parseF fuel f s = .error er) ∧
    (∀ term nthS : List Char, ',' ∉ term → '#' ∉ term →
      isdigitStr nthS = true → strVal nthS = 0 →
      ∃ er, parseTop Field.dow (term ++ '#' :: nthS) = .error er) ∧
    (∀ f : Field, f ≠ Field.day →
      parseTop f ['L'] = .error (.badValue ['L']) ∧
        parseTop f ['l'] = .error (.badValue ['l'])) := by
  refine ⟨?_, ?_, ?_, ?_, parse_L_err⟩
  · intro expr hlen
    rw [cronParse_wfc_iff]
    omega
  · intro f s1 s2 h1 h2 hl1 hl2 hv
    exact parse_range_err h1 h2 hl1 hl2 hv
  · intro f hf fuel s hs
    exact parse_hash_err hf fuel s hs
  · intro term nthS ht1 ht2 hd hz
    exact parse_nth_zero_err ht1 ht2 hd hz

/-! ## C10: compiled constraint sets are well-formed -/

/-- C10: for every accepted expression, the minute, hour, month and
second sets are non-empty, and the day and weekday sets are never both
empty after the disjunction rule (field parsing never yields an empty
set, and the disjunction rule empties at most one side). -/
theorem c10_wellformed (expr : List Char) (spec : Spec)
    (h : cronParse expr = .ok spec) :
    spec.minutes.Nonempty ∧ spec.hours.Nonempty ∧ spec.months.Nonempty ∧
      spec.seconds.Nonempty ∧ ¬(spec.days = ∅ ∧ spec.weekdays = ∅) ∧ WFSpec spec := by
  have hwf := cronParse_wf h
  obtain ⟨⟨hm, _⟩, ⟨hh, _⟩, ⟨hs, _⟩, ⟨hmo, _⟩, _, _, hboth⟩ := hwf
  exact ⟨hm, hh, hmo, hs, hboth, cronParse_wf h⟩

/-- Witness for C10 at the concrete expression `"* * * * 1"`. -/
theorem c10_wellformed_witness :
    dowSpec.minutes.Nonempty ∧ dowSpec.hours.Nonempty ∧ dowSpec.months.Nonempty ∧
      dowSpec.seconds.Nonempty ∧ ¬(dowSpec.days = ∅ ∧ dowSpec.weekdays = ∅) ∧
      WFSpec dowSpec :=
  c10_wellformed ("* * * * 1".data) dowSpec (by decide)

/-! ## Advancer stage lemmas -/

theorem scanDate_some {ok : CDate → Bool} :
    ∀ (fuel : ℕ) (d d' : CDate), scanDate ok fuel d = some d' → ok d' = true := by
  intro fuel
  induction fuel with
  | zero => intro d d' h; cases h
  | succ fuel ih =>
    intro d d' h
    simp only [scanDate] at h
    split at h
    · cases h
      assumption
    · exact ih _ _ h

theorem advanceMonth_some {spec : Spec} {sFuel : ℕ} {t t1 : CDT}
    (h : advanceMonth spec sFuel t = some t1) :
    Elem.nat t1.date.month ∈ spec.months := by
  simp only [advanceMonth] at h
  split at h
  · cases h
    assumption
  · cases hscan : scanDate (fun d => decide (Elem.nat d.month ∈ spec.months)) sFuel t.date with
    | none => rw [hscan] at h; cases h
    | some d =>
      rw [hscan] at h
      cases h
      simpa using scanDate_some _ _ _ hscan

theorem advanceDay_false {spec : Spec} {sFuel : ℕ} {t t2 : CDT}
    (h : advanceDay spec sFuel t = some (t2, false)) :
    t2 = t ∧ matchDay spec t.date = true := by
  simp only [advanceDay] at h
  split at h
  · cases h
    exact ⟨rfl, by assumption⟩
  · cases hscan : scanDate (matchDay spec) sFuel t.date with
    | none => rw [hscan] at h; cases h
    | some d =>
      rw [hscan] at h
      simp only [Option.map_some'] at h
      cases h

theorem advanceHour_false {spec : Spec} {t t3 : CDT} (h : advanceHour spec t = (t3, false)) :
    t3 = t ∧ Elem.nat t.hour ∈ spec.hours := by
  simp only [advanceHour] at h
  split at h
  · cases h
    exact ⟨rfl, by assumption⟩
  · cases h

theorem advanceMinute_false {spec : Spec} {t t4 : CDT}
    (h : advanceMinute spec t = (t4, false)) :
    t4 = t ∧ Elem.nat t.minute ∈ spec.minutes := by
  simp only [advanceMinute] at h
  split at h
  · cases h
    exact ⟨rfl, by assumption⟩
  · cases h

theorem advanceSecond_false {spec : Spec} {t t5 : CDT}
    (h : advanceSecond spec t = (t5, false)) :
    t5 = t ∧ Elem.nat t.second ∈ spec.seconds := by
  simp only [advanceSecond] at h
  split at h
  · cases h
    exact ⟨rfl, by assumption⟩
  · cases h

/-- What the adjustment loop guarantees about any instant it returns:
all five stage predicates hold there. -/
theorem cronLoop_consistent {spec : Spec} {sFuel : ℕ} :
    ∀ (fuel : ℕ) (t r : CDT), cronLoop spec sFuel fuel t = some r →
      Elem.nat r.date.month ∈ spec.months ∧ matchDay spec r.date = true ∧
      Elem.nat r.hour ∈ spec.hours ∧ Elem.nat r.minute ∈ spec.minutes ∧
      Elem.nat r.second ∈ spec.seconds := by
  intro fuel
  induction fuel with
  | zero => intro t r h; cases h
  | succ fuel ih =>
    intro t r h
    simp only [cronLoop] at h
    split at h
    · cases h
    · rename_i t1 hM
      split at h
      · cases h
      · exact ih _ _ h
      · rename_i t2 hD
        split at h
        · exact ih _ _ h
        · rename_i t3 hH
          split at h
          · exact ih _ _ h
          · rename_i t4 hMi
            split at h
            · exact ih _ _ h
            · rename_i t5 hS
              cases h
              obtain ⟨he5, hsec⟩ := advanceSecond_false hS
              obtain ⟨he4, hmin⟩ := advanceMinute_false hMi
              obtain ⟨he3, hhour⟩ := advanceHour_false hH
              obtain ⟨he2, hday⟩ := advanceDay_false hD
              have hmonth := advanceMonth_some hM
              subst he5
              subst he4
              subst he3
              subst he2
              exact ⟨hmonth, hday, hhour, hmin, hsec⟩

/-! ## C4: consistency of produced instants -/

/-- C4: every instant returned by `next()` on a compiled expression
satisfies all adjustment-stage predicates when re-evaluated: month in the
month set, date matching the day/weekday predicate, and hour, minute and
second in their sets. -/
theorem c4_consistency (expr : List Char) (spec : Spec) (t r : CDT) (sFuel fuel : ℕ)
    (hc : cronParse expr = .ok spec) (h : cronNext spec sFuel fuel t = some r) :
    Elem.nat r.date.month ∈ spec.months ∧ matchDay spec r.date = true ∧
      Elem.nat r.hour ∈ spec.hours ∧ Elem.nat r.minute ∈ spec.minutes ∧
      Elem.nat r.second ∈ spec.seconds :=
  cronLoop_consistent fuel _ r h

/-- Witness for C4: the run of `"1 1 L * *"` from 2020-01-01T00:00:00. -/
theorem c4_consistency_witness :
    Elem.nat (CDT.mk ⟨2020, 1, 31, 4⟩ 1 1 0).date.month ∈ c5spec.months ∧
      matchDay c5spec (CDT.mk ⟨2020, 1, 31, 4⟩ 1 1 0).date = true ∧
      Elem.nat (CDT.mk ⟨2020, 1, 31, 4⟩ 1 1 0).hour ∈ c5spec.hours ∧
      Elem.nat (CDT.mk ⟨2020, 1, 31, 4⟩ 1 1 0).minute ∈ c5spec.minutes ∧
      Elem.nat (CDT.mk ⟨2020, 1, 31, 4⟩ 1 1 0).second ∈ c5spec.seconds :=
  c4_consistency ("1 1 L * *".data) c5spec (initCursor c5start) (CDT.mk ⟨2020, 1, 31, 4⟩ 1 1 0)
    40 8 (by decide) (by decide)

/-! ## Date and encoding arithmetic -/

theorem monthLen_bounds (y m : ℕ) : 28 ≤ monthLen y m ∧ monthLen y m ≤ 31 := by
  simp only [monthLen]
  split_ifs <;> omega

/-- A strictly monotone encoding of datetimes: lexicographic in (year,
month, day, hour, minute, second), so strictly larger means strictly
later (whole seconds). -/
def encD (d : CDate) : ℕ := (d.year * 13 + d.month) * 32 + d.day

def encDT (t : CDT) : ℕ :=
  encD t.date * 86400 + t.hour * 3600 + t.minute * 60 + t.second

theorem valid_succ {d : CDate} (h : ValidDate d) : ValidDate d.succ := by
  obtain ⟨h1, h2, h3, h4, h5⟩ := h
  obtain ⟨hg, hl⟩ := monthLen_bounds d.year d.month
  have hg2 := (monthLen_bounds d.year (d.month + 1)).1
  have hg3 := (monthLen_bounds (d.year + 1) 1).1
  simp only [CDate.succ]
  split_ifs with hday hm <;>
    · simp only [ValidDate]
      refine ⟨by omega, by omega, by omega, by omega, by omega⟩

theorem encD_succ {d : CDate} (h : ValidDate d) : encD d < encD d.succ := by
  obtain ⟨h1, h2, h3, h4, h5⟩ := h
  obtain ⟨hg, hl⟩ := monthLen_bounds d.year d.month
  simp only [CDate.succ]
  split_ifs with hday hm <;>
    · simp only [encD]
      omega

theorem valid_iterD {d : CDate} (h : ValidDate d) (k : ℕ) : ValidDate (iterD k d) := by
  induction k generalizing d with
  | zero => exact h
  | succ k ih => exact ih (valid_succ h)

theorem encD_iterD {d : CDate} (h : ValidDate d) (k : ℕ) :
    encD d + k ≤ encD (iterD k d) := by
  induction k generalizing d with
  | zero => simp [iterD]
  | succ k ih =>
    have h1 := encD_succ h
    have h2 := ih (valid_succ h)
    simp only [iterD]
    omega

theorem iterD_add (a b : ℕ) (d : CDate) : iterD (a + b) d = iterD b (iterD a d) := by
  induction a generalizing d with
  | zero => simp [iterD]
  | succ a ih =>
    have : a + 1 + b = (a + b) + 1 := by omega
    rw [this]
    simp only [iterD]
    exact ih d.succ

theorem addSeconds_valid {t : CDT} (h : ValidDT t) (n : ℕ) : ValidDT (addSeconds t n) := by
  obtain ⟨hd, hh, hm, hs⟩ := h
  refine ⟨valid_iterD hd _, ?_, ?_, ?_⟩ <;> simp only [addSeconds] <;> omega

theorem encDT_addSeconds {t : CDT} (h : ValidDT t) (n : ℕ) :
    encDT t + n ≤ encDT (addSeconds t n) := by
  obtain ⟨hd, hh, hm, hs⟩ := h
  have hiter := encD_iterD hd ((t.hour * 3600 + t.minute * 60 + t.second + n) / 86400)
  simp only [addSeconds, encDT]
  omega

theorem addSeconds_date {t : CDT} (n : ℕ) :
    (addSeconds t n).date = iterD ((t.hour * 3600 + t.minute * 60 + t.second + n) / 86400) t.date :=
  rfl

theorem unbot'_min_eq {s : Finset ℕ} (h : s.Nonempty) :
    WithBot.unbot' 0 s.min = s.min' h := by
  rw [← Finset.coe_min' h]
  rfl

/-- `min` of a non-empty int set is a member of the set and of the
domain. -/
theorem setMin_spec {S : Finset Elem} {R : Finset ℕ} (hne : S.Nonempty) (hint : IntSet S R) :
    Elem.nat (setMin S) ∈ S ∧ setMin S ∈ R := by
  have hne' : (S.image Elem.val).Nonempty := hne.image _
  have heq : setMin S = (S.image Elem.val).min' hne' := unbot'_min_eq hne'
  have hmem := Finset.min'_mem _ hne'
  rw [← heq] at hmem
  obtain ⟨e, heS, hval⟩ := Finset.mem_image.mp hmem
  obtain ⟨n, hnR, rfl⟩ := hint e heS
  simp only [Elem.val] at hval
  rw [← hval]
  exact ⟨heS, hnR⟩

/-- The minimal modular distance is achieved by some member of the set. -/
theorem minDelta_spec {S : Finset Elem} {R : Finset ℕ} {cur modulus : ℕ}
    (hne : S.Nonempty) (hint : IntSet S R) :
    ∃ v ∈ R, Elem.nat v ∈ S ∧
      minDelta S cur modulus = (v + (modulus - cur % modulus)) % modulus := by
  have hne' : ((S.image fun e =>
      (Elem.val e + (modulus - cur % modulus)) % modulus)).Nonempty := hne.image _
  have heq : minDelta S cur modulus = _ := unbot'_min_eq hne'
  have hmem := Finset.min'_mem _ hne'
  rw [← heq] at hmem
  obtain ⟨e, heS, hval⟩ := Finset.mem_image.mp hmem
  obtain ⟨n, hnR, rfl⟩ := hint e heS
  simp only [Elem.val] at hval
  exact ⟨n, hnR, heS, hval.symm⟩

instance (d : CDate) : Decidable (ValidDate d) := by
  unfold ValidDate
  infer_instance

instance (t : CDT) : Decidable (ValidDT t) := by
  unfold ValidDT
  infer_instance

/-- What firing the hour stage guarantees. -/
theorem advanceHour_true {spec : Spec} {t t3 : CDT} (hwf : WFSpec spec) (hv : ValidDT t)
    (h : advanceHour spec t = (t3, true)) :
    ValidDT t3 ∧ encDT t < encDT t3 ∧
      Elem.nat t3.hour ∈ spec.hours ∧
      t3.minute = setMin spec.minutes ∧ t3.second = setMin spec.seconds ∧
      (t.hour = 0 → t3.date = t.date) := by
  obtain ⟨⟨hmne, hmint⟩, ⟨hhne, hhint⟩, ⟨hsne, hsint⟩, _, _, _, _⟩ := hwf
  obtain ⟨hvd, hvh, hvm, hvs⟩ := hv
  simp only [advanceHour] at h
  split at h
  · cases h
  · rename_i hnot
    cases h
    obtain ⟨v, hvR, hvS, hδ⟩ := @minDelta_spec spec.hours (Finset.range 24) t.hour 24 hhne hhint
    have hvlt : v < 24 := Finset.mem_range.mp hvR
    obtain ⟨hminS, hminR⟩ := setMin_spec hmne hmint
    obtain ⟨hsecS, hsecR⟩ := setMin_spec hsne hsint
    have hminlt : setMin spec.minutes < 60 := Finset.mem_range.mp hminR
    have hseclt : setMin spec.seconds < 60 := Finset.mem_range.mp hsecR
    have hd1 : 1 ≤ minDelta spec.hours t.hour 24 := by
      rcases Nat.eq_zero_or_pos (minDelta spec.hours t.hour 24) with h0 | h1
      · exfalso
        have hveq : v = t.hour := by omega
        rw [hveq] at hvS
        exact hnot hvS
      · exact h1
    have hdle : minDelta spec.hours t.hour 24 ≤ 23 := by omega
    have hiter := encD_iterD hvd
      ((t.hour * 3600 + t.minute * 60 + t.second + 3600 * minDelta spec.hours t.hour 24) / 86400)
    refine ⟨⟨valid_iterD hvd _, by simp only [addSeconds]; omega, hminlt, hseclt⟩,
      ?_, ?_, rfl, rfl, ?_⟩
    · simp only [encDT, addSeconds]
      omega
    · have heqh : (addSeconds t (3600 * minDelta spec.hours t.hour 24)).hour = v := by
        simp only [addSeconds]
        omega
      simp only [heqh]
      exact hvS
    · intro h0
      simp only [addSeconds]
      have hz : (t.hour * 3600 + t.minute * 60 + t.second +
          3600 * minDelta spec.hours t.hour 24) / 86400 = 0 := by omega
      rw [hz]
      rfl

/-- What firing the minute stage guarantees. -/
theorem advanceMinute_true {spec : Spec} {t t4 : CDT} (hwf : WFSpec spec) (hv : ValidDT t)
    (h : advanceMinute spec t = (t4, true)) :
    ValidDT t4 ∧ encDT t < encDT t4 ∧
      Elem.nat t4.minute ∈ spec.minutes ∧ t4.second = setMin spec.seconds ∧
      (t.minute = 0 → t4.date = t.date ∧ t4.hour = t.hour) := by
  obtain ⟨⟨hmne, hmint⟩, ⟨hhne, hhint⟩, ⟨hsne, hsint⟩, _, _, _, _⟩ := hwf
  obtain ⟨hvd, hvh, hvm, hvs⟩ := hv
  simp only [advanceMinute] at h
  split at h
  · cases h
  · rename_i hnot
    cases h
    obtain ⟨v, hvR, hvS, hδ⟩ := @minDelta_spec spec.minutes (Finset.range 60) t.minute 60 hmne hmint
    have hvlt : v < 60 := Finset.mem_range.mp hvR
    obtain ⟨hsecS, hsecR⟩ := setMin_spec hsne hsint
    have hseclt : setMin spec.seconds < 60 := Finset.mem_range.mp hsecR
    have hd1 : 1 ≤ minDelta spec.minutes t.minute 60 := by
      rcases Nat.eq_zero_or_pos (minDelta spec.minutes t.minute 60) with h0 | h1
      · exfalso
        have hveq : v = t.minute := by omega
        rw [hveq] at hvS
        exact hnot hvS
      · exact h1
    have hdle : minDelta spec.minutes t.minute 60 ≤ 59 := by omega
    have hiter := encD_iterD hvd
      ((t.hour * 3600 + t.minute * 60 + t.second + 60 * minDelta spec.minutes t.minute 60) / 86400)
    refine ⟨⟨valid_iterD hvd _, by simp only [addSeconds]; omega,
      by simp only [addSeconds]; omega, hseclt⟩, ?_, ?_, rfl, ?_⟩
    · simp only [encDT, addSeconds]
      omega
    · have heqm : (addSeconds t (60 * minDelta spec.minutes t.minute 60)).minute = v := by
        simp only [addSeconds]
        omega
      simp only [heqm]
      exact hvS
    · intro h0
      constructor
      · simp only [addSeconds]
        have hz : (t.hour * 3600 + t.minute * 60 + t.second +
            60 * minDelta spec.minutes t.minute 60) / 86400 = 0 := by omega
        rw [hz]
        rfl
      · simp only [addSeconds]
        omega

/-- What firing the second stage guarantees. -/
theorem advanceSecond_true {spec : Spec} {t t5 : CDT} (hwf : WFSpec spec) (hv : ValidDT t)
    (h : advanceSecond spec t = (t5, true)) :
    ValidDT t5 ∧ encDT t < encDT t5 ∧
      Elem.nat t5.second ∈ spec.seconds ∧
      (t.second = 0 → t5.date = t.date ∧ t5.hour = t.hour ∧ t5.minute = t.minute) := by
  obtain ⟨⟨hmne, hmint⟩, ⟨hhne, hhint⟩, ⟨hsne, hsint⟩, _, _, _, _⟩ := hwf
  obtain ⟨hvd, hvh, hvm, hvs⟩ := hv
  simp only [advanceSecond] at h
  split at h
  · cases h
  · rename_i hnot
    cases h
    obtain ⟨v, hvR, hvS, hδ⟩ := @minDelta_spec spec.seconds (Finset.range 60) t.second 60 hsne hsint
    have hvlt : v < 60 := Finset.mem_range.mp hvR
    have hd1 : 1 ≤ minDelta spec.seconds t.second 60 := by
      rcases Nat.eq_zero_or_pos (minDelta spec.seconds t.second 60) with h0 | h1
      · exfalso
        have hveq : v = t.second := by omega
        rw [hveq] at hvS
        exact hnot hvS
      · exact h1
    have hdle : minDelta spec.seconds t.second 60 ≤ 59 := by omega
    have hiter := encD_iterD hvd
      ((t.hour * 3600 + t.minute * 60 + t.second + minDelta spec.seconds t.second 60) / 86400)
    refine ⟨⟨valid_iterD hvd _, by simp only [addSeconds]; omega,
      by simp only [addSeconds]; omega, by simp only [addSeconds]; omega⟩, ?_, ?_, ?_⟩
    · simp only [encDT, addSeconds]
      omega
    · have heqs : (addSeconds t (minDelta spec.seconds t.second 60)).second = v := by
        simp only [addSeconds]
        omega
      simp only [heqs]
      exact hvS
    · intro h0
      refine ⟨?_, ?_, ?_⟩
      · simp only [addSeconds]
        have hz : (t.hour * 3600 + t.minute * 60 + t.second +
            minDelta spec.seconds t.second 60) / 86400 = 0 := by omega
        rw [hz]
        rfl
      · simp only [addSeconds]
        omega
      · simp only [addSeconds]
        omega

/-- The fuelled scan reaches exactly the first hit. -/
theorem scanDate_iter {ok : CDate → Bool} :
    ∀ (fuel : ℕ) (d d' : CDate), scanDate ok fuel d = some d' →
      ∃ k, k < fuel ∧ d' = iterD k d ∧ ok d' = true ∧ ∀ j < k, ok (iterD j d) = false := by
  intro fuel
  induction fuel with
  | zero => intro d d' h; cases h
  | succ fuel ih =>
    intro d d' h
    simp only [scanDate] at h
    split at h
    · cases h
      exact ⟨0, by omega, rfl, by assumption, fun j hj => absurd hj (Nat.not_lt_zero j)⟩
    · rename_i hnotok
      obtain ⟨k, hk, hd', hok, hmin⟩ := ih d.succ d' h
      refine ⟨k + 1, by omega, hd', hok, ?_⟩
      intro j hj
      cases j with
      | zero =>
        simp only [iterD]
        exact Bool.not_eq_true _ ▸ Bool.of_not_eq_true hnotok
      | succ j => exact hmin j (by omega)

/-- What the month stage guarantees: a valid, no-earlier cursor whose
month matches, unchanged or at midnight of the first month-matching
date. -/
theorem advanceMonth_char {spec : Spec} {sFuel : ℕ} {t t1 : CDT} (hv : ValidDT t)
    (h : advanceMonth spec sFuel t = some t1) :
    ValidDT t1 ∧ encDT t ≤ encDT t1 ∧ Elem.nat t1.date.month ∈ spec.months ∧
      (t1 = t ∨ ∃ k, 1 ≤ k ∧ t1 = ⟨iterD k t.date, 0, 0, 0⟩ ∧
        ∀ j < k, Elem.nat (iterD j t.date).month ∉ spec.months) := by
  obtain ⟨hvd, hvh, hvm, hvs⟩ := hv
  simp only [advanceMonth] at h
  split at h
  · cases h
    exact ⟨⟨hvd, hvh, hvm, hvs⟩, le_refl _, by assumption, Or.inl rfl⟩
  · rename_i hno
    cases hscan : scanDate (fun d => decide (Elem.nat d.month ∈ spec.months)) sFuel t.date with
    | none => rw [hscan] at h; cases h
    | some d' =>
      rw [hscan] at h
      simp only [Option.map_some'] at h
      cases h
      obtain ⟨k, hkf, hd', hok, hmin⟩ := scanDate_iter _ _ _ hscan
      have hmem : Elem.nat d'.month ∈ spec.months := of_decide_eq_true hok
      have hk1 : 1 ≤ k := by
        rcases Nat.eq_zero_or_pos k with rfl | h1
        · exfalso
          rw [hd'] at hmem
          exact hno hmem
        · exact h1
      have hvd' : ValidDate d' := hd' ▸ valid_iterD hvd k
      have henc : encD t.date + k ≤ encD d' := hd' ▸ encD_iterD hvd k
      refine ⟨⟨hvd', by norm_num, by norm_num, by norm_num⟩, ?_, hmem, Or.inr ⟨k, hk1, ?_, ?_⟩⟩
      · simp only [encDT]
        omega
      · rw [hd']
      · intro j hj
        have := hmin j hj
        simp only [decide_eq_false_iff_not] at this
        exact this

/-- What a date-moving day stage guarantees: a valid, no-earlier cursor
at midnight of the first day-matching date. -/
theorem advanceDay_char_true {spec : Spec} {sFuel : ℕ} {t t2 : CDT} (hv : ValidDT t)
    (h : advanceDay spec sFuel t = some (t2, true)) :
    ValidDT t2 ∧ encDT t ≤ encDT t2 ∧ matchDay spec t2.date = true ∧
      ∃ k, 1 ≤ k ∧ t2 = ⟨iterD k t.date, 0, 0, 0⟩ ∧
        ∀ j < k, matchDay spec (iterD j t.date) = false := by
  obtain ⟨hvd, hvh, hvm, hvs⟩ := hv
  simp only [advanceDay] at h
  split at h
  · cases h
  · rename_i hno
    cases hscan : scanDate (matchDay spec) sFuel t.date with
    | none => rw [hscan] at h; cases h
    | some d' =>
      rw [hscan] at h
      simp only [Option.map_some'] at h
      cases h
      obtain ⟨k, hkf, hd', hok, hmin⟩ := scanDate_iter _ _ _ hscan
      have hk1 : 1 ≤ k := by
        rcases Nat.eq_zero_or_pos k with rfl | h1
        · exfalso
          rw [hd'] at hok
          simp only [iterD] at hok
          exact hno hok
        · exact h1
      have hvd' : ValidDate d' := hd' ▸ valid_iterD hvd k
      have henc : encD t.date + k ≤ encD d' := hd' ▸ encD_iterD hvd k
      refine ⟨⟨hvd', by norm_num, by norm_num, by norm_num⟩, ?_, hok, ⟨k, hk1, ?_, hmin⟩⟩
      · simp only [encDT]
        omega
      · rw [hd']

/-- The adjustment loop only moves the cursor forward, preserving
validity. -/
theorem cronLoop_mono {spec : Spec} (hwf : WFSpec spec) {sFuel : ℕ} :
    ∀ (fuel : ℕ) (t r : CDT), ValidDT t → cronLoop spec sFuel fuel t = some r →
      ValidDT r ∧ encDT t ≤ encDT r := by
  intro fuel
  induction fuel with
  | zero => intro t r _ h; cases h
  | succ fuel ih =>
    intro t r hv h
    simp only [cronLoop] at h
    split at h
    · cases h
    · rename_i t1 hM
      obtain ⟨hv1, henc1, _, _⟩ := advanceMonth_char hv hM
      split at h
      · cases h
      · rename_i t2 hD
        obtain ⟨hv2, henc2, _, _⟩ := advanceDay_char_true hv1 hD
        obtain ⟨hvr, hencr⟩ := ih _ _ hv2 h
        exact ⟨hvr, by omega⟩
      · rename_i t2 hD
        obtain ⟨he2, _⟩ := advanceDay_false hD
        subst he2
        split at h
        · rename_i t3 hH
          obtain ⟨hv3, henc3, _, _, _, _⟩ := advanceHour_true hwf hv1 hH
          obtain ⟨hvr, hencr⟩ := ih _ _ hv3 h
          exact ⟨hvr, by omega⟩
        · rename_i t3 hH
          obtain ⟨he3, _⟩ := advanceHour_false hH
          subst he3
          split at h
          · rename_i t4 hMi
            obtain ⟨hv4, henc4, _, _, _⟩ := advanceMinute_true hwf hv1 hMi
            obtain ⟨hvr, hencr⟩ := ih _ _ hv4 h
            exact ⟨hvr, by omega⟩
          · rename_i t4 hMi
            obtain ⟨he4, _⟩ := advanceMinute_false hMi
            subst he4
            split at h
            · rename_i t5 hS
              obtain ⟨hv5, henc5, _, _⟩ := advanceSecond_true hwf hv1 hS
              obtain ⟨hvr, hencr⟩ := ih _ _ hv5 h
              exact ⟨hvr, by omega⟩
            · rename_i t5 hS
              obtain ⟨he5, _⟩ := advanceSecond_false hS
              subst he5
              cases h
              exact ⟨hv1, henc1⟩

/-! ## C3: strict monotonicity -/

/-- C3: on any compiled expression, each call of `next()` returns an
instant strictly later than the cursor it started from (`encDT` is a
strictly monotone encoding of whole-second instants, so `encDT t <
encDT r` says `r` is at least one second after `t`).  Successive calls
resume from the previously returned instant, so every returned instant
exceeds the previous one by at least one second. -/
theorem c3_monotonic (expr : List Char) (spec : Spec) (t r : CDT) (sFuel fuel : ℕ)
    (hc : cronParse expr = .ok spec) (hv : ValidDT t)
    (h : cronNext spec sFuel fuel t = some r) :
    encDT t < encDT r ∧ ValidDT r := by
  have hwf := cronParse_wf hc
  have h1 : encDT t + 1 ≤ encDT (addSeconds t 1) := encDT_addSeconds hv 1
  obtain ⟨hvr, hle⟩ := cronLoop_mono hwf fuel _ r (addSeconds_valid hv 1) h
  exact ⟨by omega, hvr⟩

/-- Witness for C3: the run of `"1 1 L * *"` from 2020-01-01T00:00:00. -/
theorem c3_monotonic_witness :
    encDT (initCursor c5start) < encDT (CDT.mk ⟨2020, 1, 31, 4⟩ 1 1 0) ∧
      ValidDT (CDT.mk ⟨2020, 1, 31, 4⟩ 1 1 0) :=
  c3_monotonic ("1 1 L * *".data) c5spec (initCursor c5start) (CDT.mk ⟨2020, 1, 31, 4⟩ 1 1 0)
    40 8 (by decide) (by decide) (by decide)

/-! ## C1: termination of the adjustment loop

The original claim fails: the constructor also accepts expressions whose
month and day constraints are jointly unsatisfiable (e.g. `"* * 31 2 *"`),
and on those `next()` scans forward forever.  The development below first
exhibits that counterexample, then proves the amended statement: under
the proviso that from every valid date some date within a horizon of `B`
days satisfies the joint month/day condition, the loop returns within a
bounded number of passes and every day-by-day scan succeeds within its
fuel. -/

/-- A midnight cursor (all three time components zero). -/
def Midnight (t : CDT) : Prop := t.hour = 0 ∧ t.minute = 0 ∧ t.second = 0

/-- All three time components of the cursor already satisfy their
constraint sets. -/
def Mem3 (spec : Spec) (t : CDT) : Prop :=
  Elem.nat t.hour ∈ spec.hours ∧ Elem.nat t.minute ∈ spec.minutes ∧
    Elem.nat t.second ∈ spec.seconds

/-- The joint date condition the loop must reach: the month matches and
`match_day` holds. -/
def jointOK (spec : Spec) (d : CDate) : Prop :=
  Elem.nat d.month ∈ spec.months ∧ matchDay spec d = true

/-- A day-by-day scan succeeds as soon as some hit lies within its
fuel. -/
theorem scanDate_succeeds {ok : CDate → Bool} :
    ∀ (fuel : ℕ) (d : CDate) (n : ℕ), n < fuel → ok (iterD n d) = true →
      ∃ d', scanDate ok fuel d = some d' := by
  intro fuel
  induction fuel with
  | zero => intro d n hn _; exact absurd hn (Nat.not_lt_zero n)
  | succ fuel ih =>
    intro d n hn hok
    simp only [scanDate]
    split
    · exact ⟨d, rfl⟩
    · rename_i hnot
      cases n with
      | zero =>
        simp only [iterD] at hok
        exact absurd hok hnot
      | succ n =>
        simp only [iterD] at hok
        exact ih d.succ n (by omega) hok

/-- The month stage succeeds whenever some date within the scan fuel has
a matching month. -/
theorem advanceMonth_succeeds {spec : Spec} {sFuel : ℕ} {t : CDT} {n : ℕ}
    (hn : n < sFuel) (hm : Elem.nat (iterD n t.date).month ∈ spec.months) :
    ∃ t1, advanceMonth spec sFuel t = some t1 := by
  simp only [advanceMonth]
  split
  · exact ⟨t, rfl⟩
  · obtain ⟨d', hd'⟩ :=
      @scanDate_succeeds (fun d => decide (Elem.nat d.month ∈ spec.months))
        sFuel t.date n hn (by simpa using hm)
    rw [hd']
    exact ⟨⟨d', 0, 0, 0⟩, rfl⟩

/-- The day stage succeeds whenever some date within the scan fuel
matches. -/
theorem advanceDay_succeeds {spec : Spec} {sFuel : ℕ} {t : CDT} {n : ℕ}
    (hn : n < sFuel) (hm : matchDay spec (iterD n t.date) = true) :
    ∃ td, advanceDay spec sFuel t = some td := by
  simp only [advanceDay]
  split
  · exact ⟨(t, false), rfl⟩
  · obtain ⟨d', hd'⟩ := scanDate_succeeds sFuel t.date n hn hm
    rw [hd']
    exact ⟨(⟨d', 0, 0, 0⟩, true), rfl⟩

/-- When every stage already matches, a pass of the loop returns the
cursor unchanged. -/
theorem cronLoop_ret {spec : Spec} {sFuel : ℕ} {t : CDT}
    (hm : Elem.nat t.date.month ∈ spec.months) (hd : matchDay spec t.date = true)
    (h3 : Mem3 spec t) :
    ∀ fuel, 1 ≤ fuel → cronLoop spec sFuel fuel t = some t := by
  intro fuel hf
  obtain ⟨f, rfl⟩ : ∃ f, fuel = f + 1 := ⟨fuel - 1, by omega⟩
  obtain ⟨hh, hmi, hs⟩ := h3
  have hM : advanceMonth spec sFuel t = some t := by simp [advanceMonth, hm]
  have hD : advanceDay spec sFuel t = some (t, false) := by simp [advanceDay, hd]
  have hH : advanceHour spec t = (t, false) := by simp [advanceHour, hh]
  have hMi : advanceMinute spec t = (t, false) := by simp [advanceMinute, hmi]
  have hS : advanceSecond spec t = (t, false) := by simp [advanceSecond, hs]
  simp only [cronLoop, hM, hD, hH, hMi, hS]

/-- The month stage at a cursor whose month already matches is a no-op,
so a pass from `t` agrees with a pass from the month-advanced cursor. -/
theorem cronLoop_month_rejoin {spec : Spec} {sFuel : ℕ} {t t1 : CDT} (f : ℕ)
    (hM : advanceMonth spec sFuel t = some t1)
    (hm1 : Elem.nat t1.date.month ∈ spec.months) :
    cronLoop spec sFuel (f + 1) t = cronLoop spec sFuel (f + 1) t1 := by
  have hM1 : advanceMonth spec sFuel t1 = some t1 := by simp [advanceMonth, hm1]
  simp only [cronLoop, hM, hM1]

/-- February has at most 29 days. -/
theorem monthLen_feb (y : ℕ) : monthLen y 2 ≤ 29 := by
  have h : monthLen y 2 = if leapYear y then 29 else 28 := by simp [monthLen]
  rw [h]
  split <;> omega

/-- No valid February date has day 31, so under `"* * 31 2 *"` no
February date matches the day stage. -/
theorem cex_feb_no_match {d : CDate} (hvd : ValidDate d) (hm : d.month = 2) :
    matchDay cexSpec d = false := by
  obtain ⟨h1, h2, h3, h4, h5⟩ := hvd
  have hlen : monthLen d.year d.month ≤ 29 := by
    rw [hm]
    exact monthLen_feb d.year
  have hd29 : d.day ≤ 29 := le_trans h4 hlen
  have hne : d.day ≠ 31 := by omega
  simp [matchDay, cexSpec, LAST, hne]

/-- Under `"* * 31 2 *"` the adjustment loop never returns: every month
pass lands in February, where no date matches the day constraint, so the
loop either exhausts a scan or restarts forever. -/
theorem cexSpec_stuck : ∀ (fuel sFuel : ℕ) (t : CDT), ValidDT t →
    cronLoop cexSpec sFuel fuel t = none := by
  intro fuel
  induction fuel with
  | zero => intro sFuel t _; rfl
  | succ fuel ih =>
    intro sFuel t hv
    cases hM : advanceMonth cexSpec sFuel t with
    | none => simp only [cronLoop, hM]
    | some t1 =>
      obtain ⟨hv1, -, hmem1, -⟩ := advanceMonth_char hv hM
      have hm2 : t1.date.month = 2 := by
        simp only [cexSpec, Finset.mem_singleton, Elem.nat.injEq] at hmem1
        exact hmem1
      have hday : matchDay cexSpec t1.date = false := cex_feb_no_match hv1.1 hm2
      cases hD : advanceDay cexSpec sFuel t1 with
      | none => simp only [cronLoop, hM, hD]
      | some td =>
        obtain ⟨t2, b⟩ := td
        cases b with
        | false =>
          obtain ⟨-, hmatch⟩ := advanceDay_false hD
          rw [hday] at hmatch
          exact Bool.noConfusion hmatch
        | true =>
          obtain ⟨hv2, -, -, -⟩ := advanceDay_char_true hv1 hD
          simp only [cronLoop, hM, hD]
          exact ih sFuel t2 hv2

/-- Counterexample to C1 as stated: `"* * 31 2 *"` is accepted by the
constructor (day 31 and month February are each individually in range),
yet from 2020-01-01T00:00:00 the adjustment loop of `next()` never
returns an instant — it scans forward forever looking for a February
31st, however much fuel it is given. -/
theorem c1_counterexample :
    cronParse ("* * 31 2 *".data) = Except.ok cexSpec ∧
      (∀ fuel sFuel : ℕ, cronNext cexSpec sFuel fuel (initCursor c5start) = none) := by
  constructor
  · decide
  · intro fuel sFuel
    exact cexSpec_stuck fuel sFuel (addSeconds (initCursor c5start) 1) (by decide)

/-- Core termination lemma: from a valid cursor that is at midnight or
already matches all three time sets, the loop returns within `n + 4`
passes whenever the joint date condition holds `n` days ahead (and the
scan fuel covers the horizon). -/
theorem cronLoop_core {spec : Spec} (hwf : WFSpec spec) {sFuel B : ℕ} (hsF : B < sFuel) :
    ∀ n, n ≤ B → ∀ t : CDT, ValidDT t → (Midnight t ∨ Mem3 spec t) →
      jointOK spec (iterD n t.date) →
      ∀ fuel, n + 4 ≤ fuel → ∃ r, cronLoop spec sFuel fuel t = some r := by
  have hwf' := hwf
  obtain ⟨⟨hmne, hmint⟩, ⟨hhne, hhint⟩, ⟨hsne, hsint⟩, -, -, -, -⟩ := hwf'
  intro n
  induction n using Nat.strong_induction_on with
  | _ n ih =>
    intro hnB t hv hstate hjoint fuel hfuel
    obtain ⟨f, rfl⟩ : ∃ f, fuel = f + 1 := ⟨fuel - 1, by omega⟩
    obtain ⟨t1, hM⟩ := advanceMonth_succeeds (show n < sFuel by omega) hjoint.1
    obtain ⟨hv1, -, hmem1, hshape⟩ := advanceMonth_char hv hM
    rcases hshape with rfl | ⟨k, hk1, ht1, hminM⟩
    · -- month stage was a no-op; the day stage succeeds at distance n
      obtain ⟨⟨t2, b⟩, hD⟩ := advanceDay_succeeds (show n < sFuel by omega) hjoint.2
      cases b with
      | true =>
        obtain ⟨hv2, -, -, j, hj1, ht2, hminD⟩ := advanceDay_char_true hv1 hD
        have hjn : j ≤ n := by
          by_contra hlt
          have hfalse := hminD n (by omega)
          have hj2 := hjoint.2
          rw [hfalse] at hj2
          exact Bool.noConfusion hj2
        have hdate2 : t2.date = iterD j t1.date := by rw [ht2]
        have hjoint2 : jointOK spec (iterD (n - j) t2.date) := by
          rw [hdate2, ← iterD_add j (n - j) t1.date, show j + (n - j) = n by omega]
          exact hjoint
        have hstep : cronLoop spec sFuel (f + 1) t1 = cronLoop spec sFuel f t2 := by
          simp only [cronLoop, hM, hD]
        rw [hstep]
        exact ih (n - j) (by omega) (by omega) t2 hv2
          (Or.inl (by rw [ht2]; exact ⟨rfl, rfl, rfl⟩)) hjoint2 f (by omega)
      | false =>
        obtain ⟨heqA, hmatch⟩ := advanceDay_false hD
        rw [heqA] at hD
        rcases hstate with hmid | h3
        · -- a midnight cursor: the time stages cannot cross midnight
          obtain ⟨h0h, h0m, h0s⟩ := hmid
          cases hH : advanceHour spec t1 with
          | mk t3 c3 =>
            cases c3 with
            | true =>
              obtain ⟨hv3, -, hh3, hm3, hs3, hd3⟩ := advanceHour_true hwf hv1 hH
              have hdate3 : t3.date = t1.date := hd3 h0h
              have hstep : cronLoop spec sFuel (f + 1) t1 = cronLoop spec sFuel f t3 := by
                simp only [cronLoop, hM, hD, hH]
              rw [hstep]
              refine ⟨t3, cronLoop_ret ?_ ?_ ⟨hh3, ?_, ?_⟩ f (by omega)⟩
              · rw [hdate3]; exact hmem1
              · rw [hdate3]; exact hmatch
              · rw [hm3]; exact (setMin_spec hmne hmint).1
              · rw [hs3]; exact (setMin_spec hsne hsint).1
            | false =>
              obtain ⟨heq3, hh⟩ := advanceHour_false hH
              rw [heq3] at hH
              cases hMi : advanceMinute spec t1 with
              | mk t4 c4 =>
                cases c4 with
                | true =>
                  obtain ⟨hv4, -, hmi4, hs4, himp4⟩ := advanceMinute_true hwf hv1 hMi
                  obtain ⟨hdate4, hhour4⟩ := himp4 h0m
                  have hstep : cronLoop spec sFuel (f + 1) t1 = cronLoop spec sFuel f t4 := by
                    simp only [cronLoop, hM, hD, hH, hMi]
                  rw [hstep]
                  refine ⟨t4, cronLoop_ret ?_ ?_ ⟨?_, hmi4, ?_⟩ f (by omega)⟩
                  · rw [hdate4]; exact hmem1
                  · rw [hdate4]; exact hmatch
                  · rw [hhour4]; exact hh
                  · rw [hs4]; exact (setMin_spec hsne hsint).1
                | false =>
                  obtain ⟨heq4, hmi⟩ := advanceMinute_false hMi
                  rw [heq4] at hMi
                  cases hS : advanceSecond spec t1 with
                  | mk t5 c5 =>
                    cases c5 with
                    | true =>
                      obtain ⟨hv5, -, hs5, himp5⟩ := advanceSecond_true hwf hv1 hS
                      obtain ⟨hdate5, hhour5, hmin5⟩ := himp5 h0s
                      have hstep : cronLoop spec sFuel (f + 1) t1 =
                          cronLoop spec sFuel f t5 := by
                        simp only [cronLoop, hM, hD, hH, hMi, hS]
                      rw [hstep]
                      refine ⟨t5, cronLoop_ret ?_ ?_ ⟨?_, ?_, hs5⟩ f (by omega)⟩
                      · rw [hdate5]; exact hmem1
                      · rw [hdate5]; exact hmatch
                      · rw [hhour5]; exact hh
                      · rw [hmin5]; exact hmi
                    | false =>
                      obtain ⟨heq5, hs⟩ := advanceSecond_false hS
                      rw [heq5] at hS
                      exact ⟨t1, by simp only [cronLoop, hM, hD, hH, hMi, hS]⟩
        · -- all three time components already match: the pass returns
          exact ⟨t1, cronLoop_ret hmem1 hmatch h3 (f + 1) (by omega)⟩
    · -- month stage moved to midnight of the first matching date
      have hkn : k ≤ n := by
        by_contra hlt
        exact (hminM n (by omega)) hjoint.1
      have hdate1 : t1.date = iterD k t.date := by rw [ht1]
      have hjoint1 : jointOK spec (iterD (n - k) t1.date) := by
        rw [hdate1, ← iterD_add k (n - k) t.date, show k + (n - k) = n by omega]
        exact hjoint
      rw [cronLoop_month_rejoin f hM hmem1]
      exact ih (n - k) (by omega) (by omega) t1 hv1
        (Or.inl (by rw [ht1]; exact ⟨rfl, rfl, rfl⟩)) hjoint1 (f + 1) (by omega)

/-- Descent, step 1: if the cursor's minute and second already match,
one pass either returns or hands a midnight or fully-matching cursor to
the core lemma. -/
theorem cronLoop_afterMin {spec : Spec} (hwf : WFSpec spec) {sFuel B : ℕ} (hsF : B < sFuel)
    (H : ∀ d, ValidDate d → ∃ k, k ≤ B ∧ jointOK spec (iterD k d)) :
    ∀ t : CDT, ValidDT t → Elem.nat t.minute ∈ spec.minutes →
      Elem.nat t.second ∈ spec.seconds →
      ∀ fuel, B + 6 ≤ fuel → ∃ r, cronLoop spec sFuel fuel t = some r := by
  have hwf' := hwf
  obtain ⟨⟨hmne, hmint⟩, ⟨hhne, hhint⟩, ⟨hsne, hsint⟩, -, -, -, -⟩ := hwf'
  intro t hv hmi hs fuel hfuel
  obtain ⟨f, rfl⟩ : ∃ f, fuel = f + 1 := ⟨fuel - 1, by omega⟩
  obtain ⟨n0, hn0B, hjoint0⟩ := H t.date hv.1
  obtain ⟨t1, hM⟩ := advanceMonth_succeeds (show n0 < sFuel by omega) hjoint0.1
  obtain ⟨hv1, -, hmem1, hshape⟩ := advanceMonth_char hv hM
  rcases hshape with rfl | ⟨k, hk1, ht1, -⟩
  · -- the month stage was a no-op
    obtain ⟨⟨t2, b⟩, hD⟩ := advanceDay_succeeds (show n0 < sFuel by omega) hjoint0.2
    cases b with
    | true =>
      obtain ⟨hv2, -, -, j, hj1, ht2, -⟩ := advanceDay_char_true hv1 hD
      have hstep : cronLoop spec sFuel (f + 1) t1 = cronLoop spec sFuel f t2 := by
        simp only [cronLoop, hM, hD]
      rw [hstep]
      obtain ⟨n2, hn2B, hjoint2⟩ := H t2.date hv2.1
      exact cronLoop_core hwf hsF n2 hn2B t2 hv2
        (Or.inl (by rw [ht2]; exact ⟨rfl, rfl, rfl⟩)) hjoint2 f (by omega)
    | false =>
      obtain ⟨heqA, hmatch⟩ := advanceDay_false hD
      rw [heqA] at hD
      cases hH : advanceHour spec t1 with
      | mk t3 c3 =>
        cases c3 with
        | true =>
          obtain ⟨hv3, -, hh3, hm3, hs3, -⟩ := advanceHour_true hwf hv1 hH
          have hstep : cronLoop spec sFuel (f + 1) t1 = cronLoop spec sFuel f t3 := by
            simp only [cronLoop, hM, hD, hH]
          rw [hstep]
          obtain ⟨n3, hn3B, hjoint3⟩ := H t3.date hv3.1
          exact cronLoop_core hwf hsF n3 hn3B t3 hv3
            (Or.inr ⟨hh3, by rw [hm3]; exact (setMin_spec hmne hmint).1,
              by rw [hs3]; exact (setMin_spec hsne hsint).1⟩) hjoint3 f (by omega)
        | false =>
          obtain ⟨heq3, hh⟩ := advanceHour_false hH
          rw [heq3] at hH
          have hMi : advanceMinute spec t1 = (t1, false) := by simp [advanceMinute, hmi]
          have hS : advanceSecond spec t1 = (t1, false) := by simp [advanceSecond, hs]
          exact ⟨t1, by simp only [cronLoop, hM, hD, hH, hMi, hS]⟩
  · -- the month stage moved: rejoin and run from midnight
    rw [cronLoop_month_rejoin f hM hmem1]
    obtain ⟨n1, hn1B, hjoint1⟩ := H t1.date hv1.1
    exact cronLoop_core hwf hsF n1 hn1B t1 hv1
      (Or.inl (by rw [ht1]; exact ⟨rfl, rfl, rfl⟩)) hjoint1 (f + 1) (by omega)

/-- Descent, step 2: if the cursor's second already matches, one pass
either returns or strictly improves the cursor's state class. -/
theorem cronLoop_afterSec {spec : Spec} (hwf : WFSpec spec) {sFuel B : ℕ} (hsF : B < sFuel)
    (H : ∀ d, ValidDate d → ∃ k, k ≤ B ∧ jointOK spec (iterD k d)) :
    ∀ t : CDT, ValidDT t → Elem.nat t.second ∈ spec.seconds →
      ∀ fuel, B + 7 ≤ fuel → ∃ r, cronLoop spec sFuel fuel t = some r := by
  have hwf' := hwf
  obtain ⟨⟨hmne, hmint⟩, ⟨hhne, hhint⟩, ⟨hsne, hsint⟩, -, -, -, -⟩ := hwf'
  intro t hv hs fuel hfuel
  obtain ⟨f, rfl⟩ : ∃ f, fuel = f + 1 := ⟨fuel - 1, by omega⟩
  obtain ⟨n0, hn0B, hjoint0⟩ := H t.date hv.1
  obtain ⟨t1, hM⟩ := advanceMonth_succeeds (show n0 < sFuel by omega) hjoint0.1
  obtain ⟨hv1, -, hmem1, hshape⟩ := advanceMonth_char hv hM
  rcases hshape with rfl | ⟨k, hk1, ht1, -⟩
  · -- the month stage was a no-op
    obtain ⟨⟨t2, b⟩, hD⟩ := advanceDay_succeeds (show n0 < sFuel by omega) hjoint0.2
    cases b with
    | true =>
      obtain ⟨hv2, -, -, j, hj1, ht2, -⟩ := advanceDay_char_true hv1 hD
      have hstep : cronLoop spec sFuel (f + 1) t1 = cronLoop spec sFuel f t2 := by
        simp only [cronLoop, hM, hD]
      rw [hstep]
      obtain ⟨n2, hn2B, hjoint2⟩ := H t2.date hv2.1
      exact cronLoop_core hwf hsF n2 hn2B t2 hv2
        (Or.inl (by rw [ht2]; exact ⟨rfl, rfl, rfl⟩)) hjoint2 f (by omega)
    | false =>
      obtain ⟨heqA, hmatch⟩ := advanceDay_false hD
      rw [heqA] at hD
      cases hH : advanceHour spec t1 with
      | mk t3 c3 =>
        cases c3 with
        | true =>
          obtain ⟨hv3, -, hh3, hm3, hs3, -⟩ := advanceHour_true hwf hv1 hH
          have hstep : cronLoop spec sFuel (f + 1) t1 = cronLoop spec sFuel f t3 := by
            simp only [cronLoop, hM, hD, hH]
          rw [hstep]
          obtain ⟨n3, hn3B, hjoint3⟩ := H t3.date hv3.1
          exact cronLoop_core hwf hsF n3 hn3B t3 hv3
            (Or.inr ⟨hh3, by rw [hm3]; exact (setMin_spec hmne hmint).1,
              by rw [hs3]; exact (setMin_spec hsne hsint).1⟩) hjoint3 f (by omega)
        | false =>
          obtain ⟨heq3, hh⟩ := advanceHour_false hH
          rw [heq3] at hH
          cases hMi : advanceMinute spec t1 with
          | mk t4 c4 =>
            cases c4 with
            | true =>
              obtain ⟨hv4, -, hmi4, hs4, -⟩ := advanceMinute_true hwf hv1 hMi
              have hstep : cronLoop spec sFuel (f + 1) t1 = cronLoop spec sFuel f t4 := by
                simp only [cronLoop, hM, hD, hH, hMi]
              rw [hstep]
              exact cronLoop_afterMin hwf hsF H t4 hv4 hmi4
                (by rw [hs4]; exact (setMin_spec hsne hsint).1) f (by omega)
            | false =>
              obtain ⟨heq4, hmi⟩ := advanceMinute_false hMi
              rw [heq4] at hMi
              have hS : advanceSecond spec t1 = (t1, false) := by simp [advanceSecond, hs]
              exact ⟨t1, by simp only [cronLoop, hM, hD, hH, hMi, hS]⟩
  · -- the month stage moved: rejoin and run from midnight
    rw [cronLoop_month_rejoin f hM hmem1]
    obtain ⟨n1, hn1B, hjoint1⟩ := H t1.date hv1.1
    exact cronLoop_core hwf hsF n1 hn1B t1 hv1
      (Or.inl (by rw [ht1]; exact ⟨rfl, rfl, rfl⟩)) hjoint1 (f + 1) (by omega)

/-- Descent, step 3: from an arbitrary valid cursor, one pass either
returns or strictly improves the cursor's state class. -/
theorem cronLoop_any {spec : Spec} (hwf : WFSpec spec) {sFuel B : ℕ} (hsF : B < sFuel)
    (H : ∀ d, ValidDate d → ∃ k, k ≤ B ∧ jointOK spec (iterD k d)) :
    ∀ t : CDT, ValidDT t →
      ∀ fuel, B + 8 ≤ fuel → ∃ r, cronLoop spec sFuel fuel t = some r := by
  have hwf' := hwf
  obtain ⟨⟨hmne, hmint⟩, ⟨hhne, hhint⟩, ⟨hsne, hsint⟩, -, -, -, -⟩ := hwf'
  intro t hv fuel hfuel
  obtain ⟨f, rfl⟩ : ∃ f, fuel = f + 1 := ⟨fuel - 1, by omega⟩
  obtain ⟨n0, hn0B, hjoint0⟩ := H t.date hv.1
  obtain ⟨t1, hM⟩ := advanceMonth_succeeds (show n0 < sFuel by omega) hjoint0.1
  obtain ⟨hv1, -, hmem1, hshape⟩ := advanceMonth_char hv hM
  rcases hshape with rfl | ⟨k, hk1, ht1, -⟩
  · -- the month stage was a no-op
    obtain ⟨⟨t2, b⟩, hD⟩ := advanceDay_succeeds (show n0 < sFuel by omega) hjoint0.2
    cases b with
    | true =>
      obtain ⟨hv2, -, -, j, hj1, ht2, -⟩ := advanceDay_char_true hv1 hD
      have hstep : cronLoop spec sFuel (f + 1) t1 = cronLoop spec sFuel f t2 := by
        simp only [cronLoop, hM, hD]
      rw [hstep]
      obtain ⟨n2, hn2B, hjoint2⟩ := H t2.date hv2.1
      exact cronLoop_core hwf hsF n2 hn2B t2 hv2
        (Or.inl (by rw [ht2]; exact ⟨rfl, rfl, rfl⟩)) hjoint2 f (by omega)
    | false =>
      obtain ⟨heqA, hmatch⟩ := advanceDay_false hD
      rw [heqA] at hD
      cases hH : advanceHour spec t1 with
      | mk t3 c3 =>
        cases c3 with
        | true =>
          obtain ⟨hv3, -, hh3, hm3, hs3, -⟩ := advanceHour_true hwf hv1 hH
          have hstep : cronLoop spec sFuel (f + 1) t1 = cronLoop spec sFuel f t3 := by
            simp only [cronLoop, hM, hD, hH]
          rw [hstep]
          obtain ⟨n3, hn3B, hjoint3⟩ := H t3.date hv3.1
          exact cronLoop_core hwf hsF n3 hn3B t3 hv3
            (Or.inr ⟨hh3, by rw [hm3]; exact (setMin_spec hmne hmint).1,
              by rw [hs3]; exact (setMin_spec hsne hsint).1⟩) hjoint3 f (by omega)
        | false =>
          obtain ⟨heq3, hh⟩ := advanceHour_false hH
          rw [heq3] at hH
          cases hMi : advanceMinute spec t1 with
          | mk t4 c4 =>
            cases c4 with
            | true =>
              obtain ⟨hv4, -, hmi4, hs4, -⟩ := advanceMinute_true hwf hv1 hMi
              have hstep : cronLoop spec sFuel (f + 1) t1 = cronLoop spec sFuel f t4 := by
                simp only [cronLoop, hM, hD, hH, hMi]
              rw [hstep]
              exact cronLoop_afterMin hwf hsF H t4 hv4 hmi4
                (by rw [hs4]; exact (setMin_spec hsne hsint).1) f (by omega)
            | false =>
              obtain ⟨heq4, hmi⟩ := advanceMinute_false hMi
              rw [heq4] at hMi
              cases hS : advanceSecond spec t1 with
              | mk t5 c5 =>
                cases c5 with
                | true =>
                  obtain ⟨hv5, -, hs5, -⟩ := advanceSecond_true hwf hv1 hS
                  have hstep : cronLoop spec sFuel (f + 1) t1 =
                      cronLoop spec sFuel f t5 := by
                    simp only [cronLoop, hM, hD, hH, hMi, hS]
                  rw [hstep]
                  exact cronLoop_afterSec hwf hsF H t5 hv5 hs5 f (by omega)
                | false =>
                  obtain ⟨heq5, hs⟩ := advanceSecond_false hS
                  rw [heq5] at hS
                  exact ⟨t1, by simp only [cronLoop, hM, hD, hH, hMi, hS]⟩
  · -- the month stage moved: rejoin and run from midnight
    rw [cronLoop_month_rejoin f hM hmem1]
    obtain ⟨n1, hn1B, hjoint1⟩ := H t1.date hv1.1
    exact cronLoop_core hwf hsF n1 hn1B t1 hv1
      (Or.inl (by rw [ht1]; exact ⟨rfl, rfl, rfl⟩)) hjoint1 (f + 1) (by omega)

/-- Under the all-wildcard expression every valid date itself satisfies
the joint month/day condition. -/
theorem allSpec_joint (d : CDate) (hd : ValidDate d) : jointOK allSpec (iterD 0 d) := by
  obtain ⟨h1, h2, h3, h4, h5⟩ := hd
  constructor
  · show Elem.nat d.month ∈ allSpec.months
    simp only [allSpec, RANGESE, RANGES]
    exact Finset.mem_image.mpr ⟨d.month, Finset.mem_Icc.mpr ⟨h1, h2⟩, rfl⟩
  · show matchDay allSpec d = true
    have hday : Elem.nat d.day ∈ allSpec.days := by
      simp only [allSpec, RANGESE, RANGES]
      refine Finset.mem_image.mpr ⟨d.day, Finset.mem_Icc.mpr ⟨h3, ?_⟩, rfl⟩
      have := monthLen_bounds d.year d.month
      omega
    simp [matchDay, hday]

/-- C1 (amended): the original claim fails — the constructor also
accepts expressions whose month/day constraints are jointly
unsatisfiable (`c1_counterexample`), and the day scan can need more than
one month's length of days (day `31` reached from February 1st lies 58
days ahead).  Under the recurring joint-satisfiability proviso `H` —
from every valid date, some date at most `B` days ahead has a matching
month and satisfies `match_day` — every call of `next()` on a compiled
expression returns an instant, within `B + 8` passes of the adjustment
loop and with every inner day-by-day scan bounded by any `sFuel > B`;
in particular the day-stage forward scan started at any valid date finds
a matching date within the same horizon. -/
theorem c1_termination (expr : List Char) (spec : Spec) (B sFuel fuel : ℕ) (t : CDT)
    (hc : cronParse expr = Except.ok spec) (hv : ValidDT t)
    (hsF : B < sFuel) (hfuel : B + 8 ≤ fuel)
    (H : ∀ d, ValidDate d → ∃ k, k ≤ B ∧ jointOK spec (iterD k d)) :
    (∃ r, cronNext spec sFuel fuel t = some r) ∧
      ∀ d, ValidDate d → ∃ d', scanDate (matchDay spec) sFuel d = some d' := by
  have hwf := cronParse_wf hc
  constructor
  · exact cronLoop_any hwf hsF H (addSeconds t 1) (addSeconds_valid hv 1) fuel hfuel
  · intro d hd
    obtain ⟨k, hkB, hjoint⟩ := H d hd
    exact scanDate_succeeds sFuel d k (by omega) hjoint.2

/-- Witness for C1: the all-wildcard expression `"* * * * * *"`
satisfies the proviso with horizon `B = 0`, so `next()` from
2020-01-01T00:00:00 returns within 8 passes with scan fuel 2. -/
theorem c1_termination_witness :
    (∃ r, cronNext allSpec 2 8 (initCursor c5start) = some r) ∧
      ∀ d, ValidDate d → ∃ d', scanDate (matchDay allSpec) 2 d = some d' :=
  c1_termination ("* * * * * *".data) allSpec 0 2 8 (initCursor c5start)
    (by decide) (by decide) (by decide) (by decide)
    (fun d hd => ⟨0, le_refl 0, allSpec_joint d hd⟩)

end CronSim
